import Mathlib

/-!
Shallow embedding of the `lob` limit order book (C++ sources:
`include/Types.h`, `PriceLevel.h` (src/unnamed/part_001), `include/OrderBook.h`,
`include/MatchingEngine.h`).

Modelling conventions:
* The C++ aliases `OrderId`, `Quantity`, `Timestamp` (`uint64_t`) are written
  as plain `Nat`, and `Price` (`int64_t`) as plain `Int`.
  No arithmetic in the matching path can over- or underflow on states reachable
  through the public API (proved below via the book invariants), so plain
  `Nat`/`Int` agree with the machine integers there.
* The engine owns every `Order` in `storage_` (a vector of `unique_ptr`);
  levels and the id index hold `Order*` pointers into that storage.  A pointer
  is modelled as the order's id, dereferencing as lookup in the `Storage` list
  (ids are unique: `nextOrderId_++`), and writes through a pointer as an
  id-directed update of the storage.
* `std::map` (price-keyed, with the side's comparator) is modelled as a list of
  `PriceLevel`s kept sorted by the generic insertion function `emplaceAdd`;
  best price first, exactly the map's iteration order.
* `std::unordered_map<OrderId, Order*> index_` stores its value redundantly
  (the pointer is determined by the id), so it is modelled as the list of keys.
* `throw std::runtime_error` in `modifyOrder` is modelled with `Except`; both
  throws occur before any mutation, so the error branches return the engine
  unchanged, exactly as the caller observes after catching.
* `timestamp` is wall-clock (`now()`), never read by any book logic; it is
  modelled as the constant 0.
-/

inductive Side where
  | Buy
  | Sell
  deriving DecidableEq, Repr

/-- C++ `struct Order` (Types.h): `quantity` is the remaining quantity. -/
structure Order where
  id : Nat
  side : Side
  price : Int
  quantity : Nat
  originalQty : Nat
  timestamp : Nat
  deriving DecidableEq, Repr

/-- C++ `struct Trade` (Types.h): an immutable fill record. -/
structure Trade where
  makerOrderId : Nat
  takerOrderId : Nat
  price : Int
  quantity : Nat
  deriving DecidableEq, Repr

/-- The engine's order arena (`std::vector<std::unique_ptr<Order>> storage_`).
An `Order*` is modelled as the order's id resolved in this list. -/
abbrev Storage := List Order

/-- Junk value produced by dereferencing an id absent from storage; this never
happens on states reachable through the public API. -/
def Order.dummy : Order := ⟨0, Side.Buy, 0, 0, 0, 0⟩

/-- Dereference an `Order*` (a pointer is the order's id). -/
def Storage.getOrd (st : Storage) (i : Nat) : Order :=
  (st.find? (fun o => o.id == i)).getD Order.dummy

/-- Write `quantity` through an `Order*` (`order->quantity = q`). -/
def Storage.setQty (st : Storage) (i : Nat) (q : Nat) : Storage :=
  st.map (fun o => if o.id = i then { o with quantity := q } else o)

/-- Does some order in storage carry id `i` (is the pointer resolvable)? -/
def Storage.hasId (st : Storage) (i : Nat) : Bool :=
  st.any (fun o => o.id == i)

/-- C++ `class PriceLevel` (PriceLevel.h): FIFO deque of `Order*` (front first)
plus the cached `totalQty_`. -/
structure PriceLevel where
  price : Int
  orders : List Nat
  totalQty : Nat
  deriving DecidableEq, Repr

namespace PriceLevel

/-- `addOrder`: push_back and grow the cached total by the order's quantity. -/
def addOrder (st : Storage) (l : PriceLevel) (i : Nat) : PriceLevel :=
  { l with orders := l.orders ++ [i],
           totalQty := l.totalQty + (st.getOrd i).quantity }

/-- `removeOrder`: scan for the first pointer with the given id; on a hit,
subtract its quantity from the total and unlink it.  Returns the new level and
whether a removal happened. -/
def removeOrder (st : Storage) (l : PriceLevel) (i : Nat) : PriceLevel × Bool :=
  match go l.orders with
  | some rest => ({ l with orders := rest,
                           totalQty := l.totalQty - (st.getOrd i).quantity }, true)
  | none => (l, false)
where
  go : List Nat → Option (List Nat)
    | [] => none
    | j :: js => if j = i then some js else (go js).map (fun r => j :: r)

/-- `getFront`: pointer to the oldest order, null (`none`) when empty. -/
def getFront? (l : PriceLevel) : Option Nat :=
  l.orders.head?

/-- `popFront`: when non-empty, subtract the front order's current quantity
from the total and pop it. -/
def popFront (st : Storage) (l : PriceLevel) : PriceLevel :=
  match l.orders with
  | [] => l
  | i :: rest => { l with orders := rest,
                          totalQty := l.totalQty - (st.getOrd i).quantity }

/-- `reduceTop`, embedded exactly as written in the source: the guard is
`if (orders_.empty())`, and the body dereferences `orders_.front()` inside
that branch.  Dereferencing the front of an empty deque is undefined
behaviour, modelled as `none`; on a non-empty level the function does
nothing. -/
def reduceTop (l : PriceLevel) (qty : Nat) : Option PriceLevel :=
  if l.orders.isEmpty then
    none
  else
    some l

/-- `adjustTotal`: the delta is an amount removed; the total only shrinks. -/
def adjustTotal (l : PriceLevel) (delta : Nat) : PriceLevel :=
  { l with totalQty := l.totalQty - delta }

/-- Sum of the remaining quantities of the orders resting at this level,
reading each through its pointer. -/
def qtySum (st : Storage) (l : PriceLevel) : Nat :=
  (l.orders.map (fun i => (st.getOrd i).quantity)).sum

end PriceLevel

/-- Ordered insertion into a price-sorted level list, as `std::map::emplace`
followed by `PriceLevel::addOrder` on the (found or fresh) level.  `cmp a b`
means price `a` is strictly better than `b` on this side, i.e. the map
comparator. -/
def emplaceAdd (cmp : Int → Int → Bool) (st : Storage) (p : Int)
    (i : Nat) : List PriceLevel → List PriceLevel
  | [] => [PriceLevel.addOrder st ⟨p, [], 0⟩ i]
  | l :: ls =>
    if l.price = p then l.addOrder st i :: ls
    else if cmp p l.price then PriceLevel.addOrder st ⟨p, [], 0⟩ i :: l :: ls
    else l :: emplaceAdd cmp st p i ls

/-- The side-map half of `OrderBook::cancelOrder`: `find` the level keyed by
`p`, `removeOrder(id)` in it, and erase the level if it is now empty. -/
def cancelInSide (st : Storage) (p : Int) (i : Nat) :
    List PriceLevel → List PriceLevel
  | [] => []
  | l :: ls =>
    if l.price = p then
      let l2 := (l.removeOrder st i).1
      if l2.orders.isEmpty then ls else l2 :: ls
    else l :: cancelInSide st p i ls

/-- The side-map half of `OrderBook::modifyQuantity`: `find` the level keyed
by `p` and `adjustTotal(delta)` on it. -/
def adjustInSide (p : Int) (delta : Nat) :
    List PriceLevel → List PriceLevel
  | [] => []
  | l :: ls =>
    if l.price = p then l.adjustTotal delta :: ls
    else l :: adjustInSide p delta ls

/-- `OrderBook::cleanLevel` on one side: erase the level keyed by `p` iff it
exists and is empty. -/
def cleanSide (p : Int) : List PriceLevel → List PriceLevel
  | [] => []
  | l :: ls =>
    if l.price = p then (if l.orders.isEmpty then ls else l :: ls)
    else l :: cleanSide p ls

/-- C++ `class OrderBook`: bids sorted best (highest) first, asks sorted best
(lowest) first, and the id index (set of keys of `index_`). -/
structure OrderBook where
  bids : List PriceLevel
  asks : List PriceLevel
  index : List Nat
  deriving DecidableEq, Repr

namespace OrderBook

/-- Comparator of the bid map (`std::greater<Price>`). -/
def bidCmp (a b : Int) : Bool := b < a

/-- Comparator of the ask map (default `std::less<Price>`). -/
def askCmp (a b : Int) : Bool := a < b

/-- `OrderBook::addOrder`: emplace-and-append on the side given by the order,
then `index_[order->id] = order`. -/
def addOrder (st : Storage) (b : OrderBook) (i : Nat) : OrderBook :=
  let ord := st.getOrd i
  let b2 :=
    match ord.side with
    | Side.Buy => { b with bids := emplaceAdd bidCmp st ord.price i b.bids }
    | Side.Sell => { b with asks := emplaceAdd askCmp st ord.price i b.asks }
  { b2 with index := if b2.index.contains i then b2.index else i :: b2.index }

/-- `OrderBook::cancelOrder`: absent id returns false and changes nothing;
otherwise remove from the owning level (dropping it if emptied), erase from
the index, and return true. -/
def cancelOrder (st : Storage) (b : OrderBook) (i : Nat) : OrderBook × Bool :=
  if b.index.contains i then
    let ord := st.getOrd i
    let b2 :=
      match ord.side with
      | Side.Buy => { b with bids := cancelInSide st ord.price i b.bids }
      | Side.Sell => { b with asks := cancelInSide st ord.price i b.asks }
    ({ b2 with index := b2.index.filter (fun j => j != i) }, true)
  else (b, false)

/-- `OrderBook::modifyQuantity`: reduce-only in-place quantity change; adjusts
the owning level's cached total by the removed amount. -/
def modifyQuantity (st : Storage) (b : OrderBook) (i : Nat)
    (newQty : Nat) : Storage × OrderBook × Bool :=
  if b.index.contains i then
    let ord := st.getOrd i
    if newQty ≥ ord.quantity then (st, b, false)
    else
      let delta := ord.quantity - newQty
      let st2 := st.setQty i newQty
      let b2 :=
        match ord.side with
        | Side.Buy => { b with bids := adjustInSide ord.price delta b.bids }
        | Side.Sell => { b with asks := adjustInSide ord.price delta b.asks }
      (st2, b2, true)
  else (st, b, false)

/-- `OrderBook::removeFromIndex`. -/
def removeFromIndex (b : OrderBook) (i : Nat) : OrderBook :=
  { b with index := b.index.filter (fun j => j != i) }

/-- `OrderBook::bestBid`: first key of the bid map, absent when empty. -/
def bestBid (b : OrderBook) : Option Int :=
  b.bids.head?.map (fun l => l.price)

/-- `OrderBook::bestAsk`: first key of the ask map, absent when empty. -/
def bestAsk (b : OrderBook) : Option Int :=
  b.asks.head?.map (fun l => l.price)

/-- `OrderBook::spread`: the source computes
`static_cast<double>(*ask - *bid) / 100.0`, a decimal dollar amount.  The
double arithmetic is modelled as the exact rational; for every value the
claims evaluate it at, the IEEE double result is exact and agrees. -/
def spread (b : OrderBook) : Option ℚ :=
  match b.bestBid, b.bestAsk with
  | some bid, some ask => some ((((ask - bid : Int) : ℚ)) / 100)
  | _, _ => none

/-- `OrderBook::midPrice`: `(*bid + *ask) / 200.0` as a double, modelled as
the exact rational. -/
def midPrice (b : OrderBook) : Option ℚ :=
  match b.bestBid, b.bestAsk with
  | some bid, some ask => some ((((bid + ask : Int) : ℚ)) / 200)
  | _, _ => none

/-- `OrderBook::hasOrder`. -/
def hasOrder (b : OrderBook) (i : Nat) : Bool :=
  b.index.contains i

/-- `OrderBook::getOrder`: null when the id is not in the index. -/
def getOrder (st : Storage) (b : OrderBook) (i : Nat) : Option Order :=
  if b.index.contains i then some (st.getOrd i) else none

end OrderBook

/-- C++ `class MatchingEngine`. -/
structure MatchingEngine where
  book : OrderBook
  storage : Storage
  nextOrderId : Nat
  deriving DecidableEq, Repr

namespace MatchingEngine

/-- `MatchingEngine()`: empty book, empty storage, `nextOrderId_ = 1`. -/
def init : MatchingEngine := ⟨⟨[], [], []⟩, [], 1⟩

/-- `MatchingEngine::fillLevel`: repeatedly fill the front maker against the
taker at the maker's price until the taker is exhausted or the level drains.
State threaded: the storage (both orders' quantities are written through
pointers), the level (cached total, deque), the book index (fully filled
makers are removed), and the trade list (appended in order).

The final branch returns directly: when the maker keeps a positive remainder
the fill equalled the taker's whole remaining quantity, so the source loop's
guard `taker->quantity > 0` fails at its next check and the loop exits with
exactly this state. -/
def fillLevel (takerId : Nat) (st : Storage) (level : PriceLevel)
    (idx : List Nat) (ts : List Trade) :
    Storage × PriceLevel × List Nat × List Trade :=
  match hm : level.orders with
  | [] => (st, level, idx, ts)
  | makerId :: _rest =>
    if (st.getOrd takerId).quantity = 0 then (st, level, idx, ts)
    else
      let maker := st.getOrd makerId
      let taker := st.getOrd takerId
      let fill := min taker.quantity maker.quantity
      let ts2 := ts ++ [⟨maker.id, taker.id, maker.price, fill⟩]
      let st1 := st.setQty takerId ((st.getOrd takerId).quantity - fill)
      let st2 := st1.setQty makerId ((st1.getOrd makerId).quantity - fill)
      let level1 := level.adjustTotal fill
      if (st2.getOrd makerId).quantity = 0 then
        let idx2 := idx.filter (fun j => j != makerId)
        fillLevel takerId st2 (level1.popFront st2) idx2 ts2
      else
        (st2, level1, idx, ts2)
termination_by level.orders.length
decreasing_by
  simp [PriceLevel.popFront, PriceLevel.adjustTotal, hm]

/-- One side of `MatchingEngine::match`: walk the opposite side best-first.
`stop lp tp` is the break test (`it->first > taker->price` for a buy taker,
`it->first < taker->price` for a sell taker).  When `fillLevel` drains the
best level, `book_.cleanLevel` erases it — for the map's first key that is
exactly dropping the list head — and the walk continues; when it leaves the
level non-empty the taker is exhausted and the loop's guard exits. -/
def matchSide (stop : Int → Int → Bool) (takerId : Nat) :
    Storage → List Nat → List PriceLevel → List Trade →
    Storage × List Nat × List PriceLevel × List Trade
  | st, idx, [], ts => (st, idx, [], ts)
  | st, idx, level :: rest, ts =>
    if (st.getOrd takerId).quantity = 0 then (st, idx, level :: rest, ts)
    else if stop level.price (st.getOrd takerId).price then
      (st, idx, level :: rest, ts)
    else
      match fillLevel takerId st level idx ts with
      | (st1, level1, idx1, ts1) =>
        if level1.orders.isEmpty then
          matchSide stop takerId st1 idx1 rest ts1
        else
          (st1, idx1, level1 :: rest, ts1)

/-- Break test of the buy-side walk: `it->first > taker->price`. -/
def buyStop (levelPrice takerPrice : Int) : Bool := takerPrice < levelPrice

/-- Break test of the sell-side walk: `it->first < taker->price`. -/
def sellStop (levelPrice takerPrice : Int) : Bool := levelPrice < takerPrice

/-- `MatchingEngine::submitOrder`: allocate the order (consuming an id), run
the matching walk on the opposite side, rest any positive remainder. -/
def submitOrder (e : MatchingEngine) (side : Side) (price : Int)
    (qty : Nat) : MatchingEngine × List Trade :=
  let id := e.nextOrderId
  let taker : Order := ⟨id, side, price, qty, qty, 0⟩
  let st0 := e.storage ++ [taker]
  match side with
  | Side.Buy =>
    match matchSide buyStop id st0 e.book.index e.book.asks [] with
    | (st1, idx1, asks1, ts) =>
      let b1 : OrderBook := ⟨e.book.bids, asks1, idx1⟩
      let e1 : MatchingEngine := ⟨b1, st1, id + 1⟩
      if 0 < (st1.getOrd id).quantity then
        ({ e1 with book := b1.addOrder st1 id }, ts)
      else (e1, ts)
  | Side.Sell =>
    match matchSide sellStop id st0 e.book.index e.book.bids [] with
    | (st1, idx1, bids1, ts) =>
      let b1 : OrderBook := ⟨bids1, e.book.asks, idx1⟩
      let e1 : MatchingEngine := ⟨b1, st1, id + 1⟩
      if 0 < (st1.getOrd id).quantity then
        ({ e1 with book := b1.addOrder st1 id }, ts)
      else (e1, ts)

/-- `MatchingEngine::cancelOrder`: delegates to the book. -/
def cancelOrder (e : MatchingEngine) (i : Nat) : MatchingEngine × Bool :=
  match e.book.cancelOrder e.storage i with
  | (b2, ok) => ({ e with book := b2 }, ok)

/-- Error taxonomy of `MatchingEngine::modifyOrder` (two distinct
`std::runtime_error` throws). -/
inductive ModifyError where
  | notFound
  | invalidModify
  deriving DecidableEq, Repr

/-- `MatchingEngine::modifyOrder`.  Both throws happen before any mutation,
so the error branches return the engine unchanged (the state the caller
observes after catching the exception). -/
def modifyOrder (e : MatchingEngine) (i : Nat) (newPrice : Int)
    (newQty : Nat) : MatchingEngine × Except ModifyError (List Trade) :=
  match e.book.getOrder e.storage i with
  | none => (e, Except.error ModifyError.notFound)
  | some ord =>
    if newPrice = ord.price then
      if newQty ≥ ord.quantity then (e, Except.error ModifyError.invalidModify)
      else
        match e.book.modifyQuantity e.storage i newQty with
        | (st2, b2, _) => ({ e with storage := st2, book := b2 }, Except.ok [])
    else
      match e.cancelOrder i with
      | (e1, _) =>
        match e1.submitOrder ord.side newPrice newQty with
        | (e2, ts) => (e2, Except.ok ts)

/-- `MatchingEngine::lastOrderId`. -/
def lastOrderId (e : MatchingEngine) : Nat := e.nextOrderId - 1

end MatchingEngine

/-- States reachable from a fresh engine through the public API.  The
`modify` step covers both outcomes; on an error the engine is returned
unchanged. -/
inductive Reachable : MatchingEngine → Prop where
  | init : Reachable MatchingEngine.init
  | submit {e} (s : Side) (p : Int) (q : Nat) :
      Reachable e → Reachable (e.submitOrder s p q).1
  | cancel {e} (i : Nat) :
      Reachable e → Reachable (e.cancelOrder i).1
  | modify {e} (i : Nat) (p : Int) (q : Nat) :
      Reachable e → Reachable (e.modifyOrder i p q).1

/-! ### Storage (order arena) lemmas -/

namespace Storage

theorem hasId_iff {st : Storage} {i : Nat} :
    st.hasId i = true ↔ ∃ o ∈ st, o.id = i := by
  simp [Storage.hasId, List.any_eq_true]

theorem find?_eq_none_of_not_hasId {st : Storage} {i : Nat}
    (h : st.hasId i = false) : st.find? (fun o => o.id == i) = none := by
  rw [List.find?_eq_none]
  intro o ho
  simp only [Storage.hasId, List.any_eq_true, not_exists] at *
  intro hbeq
  have : ∃ o ∈ st, (o.id == i) = true := ⟨o, ho, hbeq⟩
  rw [← List.any_eq_true] at this
  rw [h] at this
  exact Bool.false_ne_true this

theorem getOrd_eq_dummy {st : Storage} {i : Nat} (h : st.hasId i = false) :
    st.getOrd i = Order.dummy := by
  simp [Storage.getOrd, find?_eq_none_of_not_hasId h]

theorem getOrd_id {st : Storage} {i : Nat} (h : st.hasId i = true) :
    (st.getOrd i).id = i := by
  simp only [Storage.hasId, List.any_eq_true] at h
  obtain ⟨o, ho, hid⟩ := h
  have : (st.find? (fun o => o.id == i)).isSome := by
    apply List.find?_isSome.mpr
    exact ⟨o, ho, hid⟩
  obtain ⟨r, hr⟩ := Option.isSome_iff_exists.mp this
  have := List.find?_some hr
  simp only [beq_iff_eq] at this
  simp [Storage.getOrd, hr, this]

theorem getOrd_mem {st : Storage} {i : Nat} (h : st.hasId i = true) :
    st.getOrd i ∈ st := by
  simp only [Storage.hasId, List.any_eq_true] at h
  obtain ⟨o, ho, hid⟩ := h
  have : (st.find? (fun o => o.id == i)).isSome := by
    apply List.find?_isSome.mpr
    exact ⟨o, ho, hid⟩
  obtain ⟨r, hr⟩ := Option.isSome_iff_exists.mp this
  have := List.mem_of_find?_eq_some hr
  simp [Storage.getOrd, hr, this]

theorem hasId_setQty (st : Storage) (i : Nat) (q : Nat) (j : Nat) :
    (st.setQty i q).hasId j = st.hasId j := by
  induction st with
  | nil => rfl
  | cons o os ih =>
    simp only [Storage.setQty, List.map_cons, Storage.hasId, List.any_cons] at *
    by_cases h : o.id = i <;> simp [h, ih]

theorem getOrd_setQty_ne {st : Storage} {i j : Nat} (q : Nat)
    (h : j ≠ i) : (st.setQty i q).getOrd j = st.getOrd j := by
  induction st with
  | nil => rfl
  | cons o os ih =>
    simp only [Storage.setQty, List.map_cons]
    by_cases ho : o.id = i
    · have h1 : ((({ o with quantity := q } : Order)).id == j) = false := by
        simp only [beq_eq_false_iff_ne, ne_eq]
        show ¬ o.id = j
        rw [ho]; exact fun hh => h hh.symm
      have h2 : (o.id == j) = false := by
        simp only [beq_eq_false_iff_ne, ne_eq]
        rw [ho]; exact fun hh => h hh.symm
      simp only [Storage.getOrd, if_pos ho, List.find?_cons, h1, h2]
      exact ih
    · simp only [Storage.getOrd, if_neg ho]
      by_cases hoj : o.id = j
      · have h1 : (o.id == j) = true := by simp [hoj]
        simp only [List.find?_cons, h1]
      · have h1 : (o.id == j) = false := by simp [hoj]
        simp only [List.find?_cons, h1]
        exact ih

theorem getOrd_setQty_self {st : Storage} {i : Nat} (q : Nat)
    (h : st.hasId i = true) :
    (st.setQty i q).getOrd i = { st.getOrd i with quantity := q } := by
  induction st with
  | nil => simp [Storage.hasId] at h
  | cons o os ih =>
    simp only [Storage.setQty, List.map_cons]
    by_cases ho : o.id = i
    · have h1 : ((({ o with quantity := q } : Order)).id == i) = true := by
        simp only [beq_iff_eq]
        show o.id = i
        exact ho
      have h2 : (o.id == i) = true := by simp [ho]
      simp only [Storage.getOrd, if_pos ho, List.find?_cons, h1, h2]
      rfl
    · have h2 : (o.id == i) = false := by simp [ho]
      simp only [Storage.getOrd, if_neg ho, List.find?_cons, h2]
      have h3 : Storage.hasId os i = true := by
        simp only [Storage.hasId, List.any_cons, h2, Bool.false_or] at h
        exact h
      exact ih h3

theorem setQty_of_not_hasId {st : Storage} {i : Nat} (q : Nat)
    (h : st.hasId i = false) : st.setQty i q = st := by
  induction st with
  | nil => rfl
  | cons o os ih =>
    simp only [Storage.hasId, List.any_cons, Bool.or_eq_false_iff,
      beq_eq_false_iff_ne, ne_eq] at h
    simp only [Storage.setQty, List.map_cons, if_neg h.1]
    have h2 : Storage.hasId os i = false := by
      simp only [Storage.hasId, List.any_eq_false]
      intro o2 ho2
      simp only [List.any_eq_false] at h
      exact h.2 o2 ho2
    have := ih h2
    simp only [Storage.setQty] at this
    rw [this]

end Storage

namespace Storage

theorem getOrd_setQty_keep {st : Storage} (i : Nat) (q : Nat) (j : Nat) :
    ((st.setQty i q).getOrd j).id = (st.getOrd j).id ∧
    ((st.setQty i q).getOrd j).side = (st.getOrd j).side ∧
    ((st.setQty i q).getOrd j).price = (st.getOrd j).price ∧
    ((st.setQty i q).getOrd j).originalQty = (st.getOrd j).originalQty := by
  by_cases hj : j = i
  · subst hj
    by_cases h : st.hasId j
    · rw [getOrd_setQty_self q h]
      exact ⟨rfl, rfl, rfl, rfl⟩
    · rw [setQty_of_not_hasId q (Bool.of_not_eq_true h ▸ (Bool.not_eq_true _).mp h)]
      exact ⟨rfl, rfl, rfl, rfl⟩
  · rw [getOrd_setQty_ne q hj]
    exact ⟨rfl, rfl, rfl, rfl⟩

theorem getOrd_setQty_qty {st : Storage} (i : Nat) (q : Nat)
    (h : st.hasId i = true) : ((st.setQty i q).getOrd i).quantity = q := by
  rw [getOrd_setQty_self q h]

theorem hasId_append (st st2 : Storage) (i : Nat) :
    (st ++ st2).hasId i = (st.hasId i || st2.hasId i) := by
  simp [Storage.hasId]

theorem getOrd_append_left {st : Storage} (st2 : Storage) {i : Nat}
    (h : st.hasId i = true) : (st ++ st2).getOrd i = st.getOrd i := by
  have : (st.find? (fun o => o.id == i)).isSome := by
    simp only [Storage.hasId, List.any_eq_true] at h
    obtain ⟨o, ho, hid⟩ := h
    exact List.find?_isSome.mpr ⟨o, ho, hid⟩
  obtain ⟨r, hr⟩ := Option.isSome_iff_exists.mp this
  simp [Storage.getOrd, List.find?_append, hr]

theorem getOrd_append_right {st : Storage} (st2 : Storage) {i : Nat}
    (h : st.hasId i = false) : (st ++ st2).getOrd i = st2.getOrd i := by
  simp [Storage.getOrd, List.find?_append, find?_eq_none_of_not_hasId h]

end Storage

/-! ### Level-list helpers and their lemmas -/

/-- Ids of all orders resting on one side of the book, best level first,
FIFO order within each level. -/
def sideIds : List PriceLevel → List Nat
  | [] => []
  | l :: ls => l.orders ++ sideIds ls

/-- Prices of the levels of one side, in map iteration order. -/
def sidePrices (ls : List PriceLevel) : List Int :=
  ls.map (fun l => l.price)

/-- Total remaining quantity behind a list of order pointers. -/
def idsQty (st : Storage) (is : List Nat) : Nat :=
  (is.map (fun i => (st.getOrd i).quantity)).sum

theorem idsQty_nil (st : Storage) : idsQty st [] = 0 := rfl

theorem idsQty_cons (st : Storage) (i : Nat) (is : List Nat) :
    idsQty st (i :: is) = (st.getOrd i).quantity + idsQty st is := by
  simp [idsQty]

theorem idsQty_append (st : Storage) (is js : List Nat) :
    idsQty st (is ++ js) = idsQty st is + idsQty st js := by
  simp [idsQty]

theorem idsQty_congr {st st2 : Storage} {is : List Nat}
    (h : ∀ i ∈ is, (st2.getOrd i).quantity = (st.getOrd i).quantity) :
    idsQty st2 is = idsQty st is := by
  unfold idsQty
  congr 1
  exact List.map_congr_left h

theorem idsQty_setQty_not_mem {st : Storage} {i : Nat} (q : Nat)
    {is : List Nat} (h : i ∉ is) :
    idsQty (st.setQty i q) is = idsQty st is := by
  apply idsQty_congr
  intro j hj
  have hji : j ≠ i := fun hji => h (hji ▸ hj)
  rw [Storage.getOrd_setQty_ne q hji]

theorem idsQty_perm (st : Storage) {is js : List Nat} (h : is.Perm js) :
    idsQty st is = idsQty st js := by
  unfold idsQty
  exact (h.map _).sum_eq

theorem PriceLevel.qtySum_eq_idsQty (st : Storage) (l : PriceLevel) :
    l.qtySum st = idsQty st l.orders := rfl

theorem removeOrder_go_eq_none {i : Nat} {is : List Nat} (h : i ∉ is) :
    PriceLevel.removeOrder.go i is = none := by
  induction is with
  | nil => rfl
  | cons j js ih =>
    rw [PriceLevel.removeOrder.go]
    have hji : ¬ j = i := fun hh => h (hh ▸ List.mem_cons_self j js)
    rw [if_neg hji, ih (fun hm => h (List.mem_cons_of_mem j hm))]
    rfl

theorem removeOrder_go_eq_some {i : Nat} {is : List Nat} (h : i ∈ is) :
    PriceLevel.removeOrder.go i is = some (is.erase i) := by
  induction is with
  | nil => cases h
  | cons j js ih =>
    rw [PriceLevel.removeOrder.go]
    by_cases hji : j = i
    · rw [if_pos hji, hji, List.erase_cons_head]
    · have hm : i ∈ js := by
        rcases List.mem_cons.mp h with h1 | h1
        · exact absurd h1.symm hji
        · exact h1
      rw [if_neg hji, ih hm, List.erase_cons_tail]
      · rfl
      · simp [hji]

theorem Storage.setQty_map_id (st : Storage) (i q : Nat) :
    (st.setQty i q).map (fun o => o.id) = st.map (fun o => o.id) := by
  induction st with
  | nil => rfl
  | cons o os ih =>
    simp only [Storage.setQty, List.map_cons] at *
    by_cases h : o.id = i <;> simp [h, ih]

/-! ### fillLevel specification -/

theorem setQty2_getOrd_ne {st : Storage} {t m j : Nat} (q1 q2 : Nat)
    (hjt : j ≠ t) (hjm : j ≠ m) :
    ((st.setQty t q1).setQty m q2).getOrd j = st.getOrd j := by
  rw [Storage.getOrd_setQty_ne q2 hjm, Storage.getOrd_setQty_ne q1 hjt]

theorem setQty2_keep (st : Storage) (t m : Nat) (q1 q2 : Nat) (j : Nat) :
    (((st.setQty t q1).setQty m q2).getOrd j).id = (st.getOrd j).id ∧
    (((st.setQty t q1).setQty m q2).getOrd j).side = (st.getOrd j).side ∧
    (((st.setQty t q1).setQty m q2).getOrd j).price = (st.getOrd j).price ∧
    (((st.setQty t q1).setQty m q2).getOrd j).originalQty = (st.getOrd j).originalQty ∧
    ((st.setQty t q1).setQty m q2).hasId j = st.hasId j := by
  obtain ⟨a1, a2, a3, a4⟩ := @Storage.getOrd_setQty_keep (st.setQty t q1) m q2 j
  obtain ⟨b1, b2, b3, b4⟩ := @Storage.getOrd_setQty_keep st t q1 j
  refine ⟨?_, ?_, ?_, ?_, ?_⟩
  · rw [a1, b1]
  · rw [a2, b2]
  · rw [a3, b3]
  · rw [a4, b4]
  · rw [Storage.hasId_setQty, Storage.hasId_setQty]

theorem popFront_adjustTotal_eq (st2 : Storage) (level : PriceLevel) (f : Nat)
    {makerId : Nat} {rest : List Nat} (hm : level.orders = makerId :: rest) :
    PriceLevel.popFront st2 (level.adjustTotal f) =
      ⟨level.price, rest, level.totalQty - f - (st2.getOrd makerId).quantity⟩ := by
  simp [PriceLevel.popFront, PriceLevel.adjustTotal, hm]

namespace MatchingEngine

/-- Unconditional facts about one `fillLevel` run: the level keeps its price,
the surviving queue is a suffix (`drop k`) of the original, the index loses
exactly the popped prefix (`take k`), storage cells outside the taker and this
level's orders are untouched, and no quantity write changes an id, side,
price, original quantity, or the id set. -/
theorem fillLevel_basic (takerId : Nat) :
    ∀ (n : Nat) (st : Storage) (level : PriceLevel) (idx : List Nat) (ts : List Trade),
      level.orders.length ≤ n →
      ∀ stOut levelOut idxOut tsOut,
        fillLevel takerId st level idx ts = (stOut, levelOut, idxOut, tsOut) →
        levelOut.price = level.price ∧
        (∃ k, k ≤ level.orders.length ∧ levelOut.orders = level.orders.drop k ∧
          (∀ j, j ∈ idxOut ↔ j ∈ idx ∧ j ∉ level.orders.take k)) ∧
        (∀ j, j ≠ takerId → j ∉ level.orders →
          Storage.getOrd stOut j = Storage.getOrd st j) ∧
        (∀ j, (Storage.getOrd stOut j).id = (Storage.getOrd st j).id ∧
          (Storage.getOrd stOut j).side = (Storage.getOrd st j).side ∧
          (Storage.getOrd stOut j).price = (Storage.getOrd st j).price ∧
          (Storage.getOrd stOut j).originalQty = (Storage.getOrd st j).originalQty ∧
          Storage.hasId stOut j = Storage.hasId st j) ∧
        stOut.map (fun o => o.id) = st.map (fun o => o.id) := by
  intro n
  induction n with
  | zero =>
    intro st level idx ts hlen stOut levelOut idxOut tsOut heq
    have hm : level.orders = [] := List.length_eq_zero.mp (Nat.le_zero.mp hlen)
    rw [fillLevel.eq_def] at heq
    split at heq
    · simp only [Prod.mk.injEq] at heq
      obtain ⟨rfl, rfl, rfl, rfl⟩ := heq
      refine ⟨rfl, ⟨0, Nat.zero_le _, rfl, fun j => by simp⟩, fun j _ _ => rfl,
        fun j => ⟨rfl, rfl, rfl, rfl, rfl⟩, rfl⟩
    · rename_i makerId rest hm2
      rw [hm] at hm2
      cases hm2
  | succ n ih =>
    intro st level idx ts hlen stOut levelOut idxOut tsOut heq
    rw [fillLevel.eq_def] at heq
    split at heq
    · simp only [Prod.mk.injEq] at heq
      obtain ⟨rfl, rfl, rfl, rfl⟩ := heq
      refine ⟨rfl, ⟨0, Nat.zero_le _, rfl, fun j => by simp⟩, fun j _ _ => rfl,
        fun j => ⟨rfl, rfl, rfl, rfl, rfl⟩, rfl⟩
    · rename_i makerId rest hm
      split at heq
      · simp only [Prod.mk.injEq] at heq
        obtain ⟨rfl, rfl, rfl, rfl⟩ := heq
        refine ⟨rfl, ⟨0, Nat.zero_le _, rfl, fun j => by simp⟩, fun j _ _ => rfl,
          fun j => ⟨rfl, rfl, rfl, rfl, rfl⟩, rfl⟩
      · rename_i hq
        simp only [] at heq
        rw [popFront_adjustTotal_eq _ _ _ hm] at heq
        split at heq
        · -- the front maker was fully filled: popped, removed from the index,
          -- and the walk continues on the rest of the queue
          rename_i hz
          have hlen2 : (⟨level.price, rest,
              level.totalQty - min (Storage.getOrd st takerId).quantity (Storage.getOrd st makerId).quantity -
                0⟩ : PriceLevel).orders.length ≤ n := by
            have := hlen
            rw [hm] at this
            exact Nat.le_of_succ_le_succ this
          obtain ⟨hp, ⟨k, hk, hdrop, hidx⟩, hstab, hkeep, hmap⟩ :=
            ih _ _ _ _ (by simpa using (by rw [hm] at hlen; exact Nat.le_of_succ_le_succ hlen))
              stOut levelOut idxOut tsOut heq
          refine ⟨hp, ⟨k + 1, ?_, ?_, ?_⟩, ?_, ?_, ?_⟩
          · rw [hm]
            simpa using Nat.succ_le_succ (by simpa using hk)
          · rw [hm, List.drop_succ_cons]
            simpa using hdrop
          · intro j
            rw [hidx j]
            simp only [List.mem_filter, bne_iff_ne, ne_eq, decide_eq_true_eq, hm,
              List.take_succ_cons, List.mem_cons, not_or]
            tauto
          · intro j hjt hjm
            rw [hstab j hjt (by
              simp only []
              intro hmem
              exact hjm (hm ▸ List.mem_cons_of_mem _ hmem))]
            exact setQty2_getOrd_ne _ _ hjt
              (fun h1 => hjm (hm ▸ h1 ▸ List.mem_cons_self _ _))
          · intro j
            obtain ⟨k1, k2, k3, k4, k5⟩ := hkeep j
            obtain ⟨m1, m2, m3, m4, m5⟩ := setQty2_keep st takerId makerId
              ((Storage.getOrd st takerId).quantity -
                min (Storage.getOrd st takerId).quantity (Storage.getOrd st makerId).quantity)
              (((st.setQty takerId ((Storage.getOrd st takerId).quantity -
                min (Storage.getOrd st takerId).quantity (Storage.getOrd st makerId).quantity)).getOrd
                  makerId).quantity -
                min (Storage.getOrd st takerId).quantity (Storage.getOrd st makerId).quantity) j
            exact ⟨by rw [k1, m1], by rw [k2, m2], by rw [k3, m3], by rw [k4, m4],
              by rw [k5, m5]⟩
          · rw [hmap, Storage.setQty_map_id, Storage.setQty_map_id]
        · -- the front maker keeps a positive remainder: the taker was exhausted
          rename_i hz
          simp only [Prod.mk.injEq] at heq
          obtain ⟨rfl, rfl, rfl, rfl⟩ := heq
          refine ⟨by simp [PriceLevel.adjustTotal], ⟨0, Nat.zero_le _, by
            simp [PriceLevel.adjustTotal], fun j => by simp⟩, ?_, ?_, ?_⟩
          · intro j hjt hjm
            exact setQty2_getOrd_ne _ _ hjt
              (fun h1 => hjm (hm ▸ h1 ▸ List.mem_cons_self _ _))
          · intro j
            exact setQty2_keep st takerId makerId _ _ j
          · rw [Storage.setQty_map_id, Storage.setQty_map_id]

end MatchingEngine

/-- Sum of the quantities of the first `k` trades of a list; the taker's
remaining quantity just before trade `k` is its initial quantity minus this. -/
def tradeQtyPref (ts : List Trade) (k : Nat) : Nat :=
  ((ts.take k).map (fun t => t.quantity)).sum

theorem tradeQtyPref_zero (ts : List Trade) : tradeQtyPref ts 0 = 0 := rfl

theorem tradeQtyPref_cons_succ (t : Trade) (ts : List Trade) (k : Nat) :
    tradeQtyPref (t :: ts) (k + 1) = t.quantity + tradeQtyPref ts k := by
  simp [tradeQtyPref]

theorem fillStep_maker_qty {st : Storage} {t m : Nat} (q1 f : Nat)
    (htm : m ≠ t) (hhm : Storage.hasId st m = true) :
    (((st.setQty t q1).setQty m (((st.setQty t q1).getOrd m).quantity - f)).getOrd m).quantity
      = (st.getOrd m).quantity - f := by
  have h2 : Storage.hasId (st.setQty t q1) m = true := by
    rw [Storage.hasId_setQty]
    exact hhm
  rw [Storage.getOrd_setQty_qty _ _ h2, Storage.getOrd_setQty_ne q1 htm]

theorem fillStep_taker_qty {st : Storage} {t m : Nat} (q1 q2 : Nat)
    (htm : t ≠ m) (hht : Storage.hasId st t = true) :
    (((st.setQty t q1).setQty m q2).getOrd t).quantity = q1 := by
  rw [Storage.getOrd_setQty_ne q2 htm, Storage.getOrd_setQty_qty _ q1 hht]

theorem idsQty_setQty2_not_mem {st : Storage} {t m : Nat} (q1 q2 : Nat)
    {is : List Nat} (ht : t ∉ is) (hmm : m ∉ is) :
    idsQty ((st.setQty t q1).setQty m q2) is = idsQty st is := by
  rw [idsQty_setQty_not_mem q2 hmm, idsQty_setQty_not_mem q1 ht]

theorem hasId_setQty2 (st : Storage) (t m : Nat) (q1 q2 : Nat) (j : Nat) :
    ((st.setQty t q1).setQty m q2).hasId j = st.hasId j := by
  rw [Storage.hasId_setQty, Storage.hasId_setQty]

namespace MatchingEngine

/-- Main specification of `fillLevel` under the book invariants on the level:
the cached total of the surviving level equals the sum of its orders'
remaining quantities in the output storage; when the level survives non-empty
the taker was exhausted; and the emitted trades are exactly maker-priced fills
`min(taker remaining, maker remaining)` against successive resting makers, the
taker's remaining quantity decreasing by the previous fills. -/
theorem fillLevel_main (takerId : Nat) :
    ∀ (n : Nat) (st : Storage) (level : PriceLevel) (idx : List Nat) (ts : List Trade),
      level.orders.length ≤ n →
      Storage.hasId st takerId = true →
      takerId ∉ level.orders →
      level.orders.Nodup →
      level.totalQty = idsQty st level.orders →
      (∀ i ∈ level.orders, Storage.hasId st i = true) →
      ∀ stOut levelOut idxOut tsOut,
        fillLevel takerId st level idx ts = (stOut, levelOut, idxOut, tsOut) →
        levelOut.totalQty = idsQty stOut levelOut.orders ∧
        (levelOut.orders ≠ [] → (Storage.getOrd stOut takerId).quantity = 0) ∧
        (∃ new, tsOut = ts ++ new ∧
          (Storage.getOrd stOut takerId).quantity =
            (Storage.getOrd st takerId).quantity - tradeQtyPref new new.length ∧
          ∀ m (hm2 : m < new.length),
          ∃ mid ∈ level.orders,
            new.get ⟨m, hm2⟩ = ⟨mid, takerId, (Storage.getOrd st mid).price,
              min ((Storage.getOrd st takerId).quantity - tradeQtyPref new m)
                  (Storage.getOrd st mid).quantity⟩) := by
  intro n
  induction n with
  | zero =>
    intro st level idx ts hlen hht hTnotin hnd hsum hids stOut levelOut idxOut tsOut heq
    have hm : level.orders = [] := List.length_eq_zero.mp (Nat.le_zero.mp hlen)
    rw [fillLevel.eq_def] at heq
    split at heq
    · simp only [Prod.mk.injEq] at heq
      obtain ⟨rfl, rfl, rfl, rfl⟩ := heq
      exact ⟨hsum, fun hne => absurd hm hne,
        ⟨[], by simp, by simp [tradeQtyPref], fun m hm2 => by simp at hm2⟩⟩
    · rename_i makerId rest hm2
      rw [hm] at hm2
      cases hm2
  | succ n ih =>
    intro st level idx ts hlen hht hTnotin hnd hsum hids stOut levelOut idxOut tsOut heq
    rw [fillLevel.eq_def] at heq
    split at heq
    · rename_i hm
      simp only [Prod.mk.injEq] at heq
      obtain ⟨rfl, rfl, rfl, rfl⟩ := heq
      exact ⟨hsum, fun hne => absurd hm hne,
        ⟨[], by simp, by simp [tradeQtyPref], fun m hm2 => by simp at hm2⟩⟩
    · rename_i makerId rest hm
      have hmem : makerId ∈ level.orders := hm ▸ List.mem_cons_self _ _
      have htm : takerId ≠ makerId := fun h1 => hTnotin (h1 ▸ hmem)
      have hhm : Storage.hasId st makerId = true := hids makerId hmem
      have hmr : makerId ∉ rest := by
        rw [hm] at hnd
        exact (List.nodup_cons.mp hnd).1
      have htr : takerId ∉ rest := fun h1 => hTnotin (hm ▸ List.mem_cons_of_mem _ h1)
      have hndr : rest.Nodup := by
        rw [hm] at hnd
        exact (List.nodup_cons.mp hnd).2
      have hsum2 : level.totalQty =
          (Storage.getOrd st makerId).quantity + idsQty st rest := by
        rw [hsum, hm, idsQty_cons]
      split at heq
      · rename_i hq
        simp only [Prod.mk.injEq] at heq
        obtain ⟨rfl, rfl, rfl, rfl⟩ := heq
        exact ⟨hsum, fun _ => hq, ⟨[], by simp, by simp [tradeQtyPref],
          fun m hm2 => by simp at hm2⟩⟩
      · rename_i hq
        simp only [] at heq
        rw [popFront_adjustTotal_eq _ _ _ hm] at heq
        split at heq
        case isTrue hz =>
          rw [fillStep_maker_qty _ _ htm.symm hhm] at hz
          -- the fill consumed the whole front maker
          have hfm : min (Storage.getOrd st takerId).quantity
              (Storage.getOrd st makerId).quantity = (Storage.getOrd st makerId).quantity := by
            omega
          obtain ⟨hsumO, hzeroO, ⟨new2, hts, hqO, htr2⟩⟩ :=
            ih _ _ _ _
              (by
                simp only []
                rw [hm] at hlen
                exact Nat.le_of_succ_le_succ hlen)
              (by rw [hasId_setQty2]; exact hht)
              (by simpa using htr)
              (by simpa using hndr)
              (by
                simp only []
                rw [fillStep_maker_qty _ _ htm.symm hhm,
                    idsQty_setQty2_not_mem _ _ htr hmr]
                omega)
              (by
                intro i hi
                simp only [] at hi
                rw [hasId_setQty2]
                exact hids i (hm ▸ List.mem_cons_of_mem _ hi))
              stOut levelOut idxOut tsOut heq
          refine ⟨hsumO, hzeroO, ?_⟩
          refine ⟨⟨makerId, takerId, (Storage.getOrd st makerId).price,
              min (Storage.getOrd st takerId).quantity
                (Storage.getOrd st makerId).quantity⟩ :: new2, ?_, ?_, ?_⟩
          · rw [hts]
            rw [Storage.getOrd_id hhm, Storage.getOrd_id hht]
            simp
          · rw [fillStep_taker_qty _ _ htm hht] at hqO
            rw [hqO]
            simp only [List.length_cons]
            rw [tradeQtyPref_cons_succ]
            simp [Nat.sub_sub]
          · intro m hm2
            match m with
            | 0 =>
              refine ⟨makerId, hmem, ?_⟩
              simp [tradeQtyPref_zero]
            | Nat.succ m2 =>
              have hm3 : m2 < new2.length := Nat.lt_of_succ_lt_succ hm2
              obtain ⟨mid, hmidmem, hval⟩ := htr2 m2 hm3
              have hmidr : mid ∈ rest := by simpa using hmidmem
              have hmid_ne_t : mid ≠ takerId := fun h1 => htr (h1 ▸ hmidr)
              have hmid_ne_m : mid ≠ makerId := fun h1 => hmr (h1 ▸ hmidr)
              refine ⟨mid, hm ▸ List.mem_cons_of_mem _ hmidr, ?_⟩
              have hget : (⟨makerId, takerId, (Storage.getOrd st makerId).price,
                  min (Storage.getOrd st takerId).quantity
                    (Storage.getOrd st makerId).quantity⟩ :: new2).get
                    ⟨m2 + 1, hm2⟩ = new2.get ⟨m2, hm3⟩ := rfl
              rw [hget, hval]
              rw [setQty2_getOrd_ne _ _ hmid_ne_t hmid_ne_m]
              rw [fillStep_taker_qty _ _ htm hht]
              rw [tradeQtyPref_cons_succ]
              congr 2
              simp only [Nat.sub_sub]
        case isFalse hz =>
          rw [fillStep_maker_qty _ _ htm.symm hhm] at hz
          have hfq : min (Storage.getOrd st takerId).quantity
              (Storage.getOrd st makerId).quantity = (Storage.getOrd st takerId).quantity := by
            omega
          simp only [Prod.mk.injEq] at heq
          obtain ⟨rfl, rfl, rfl, rfl⟩ := heq
          refine ⟨?_, ?_, ?_⟩
          · show (level.adjustTotal _).totalQty = _
            simp only [PriceLevel.adjustTotal, hm]
            rw [idsQty_cons, fillStep_maker_qty _ _ htm.symm hhm,
                idsQty_setQty2_not_mem _ _ htr hmr]
            omega
          · intro _
            rw [fillStep_taker_qty _ _ htm hht]
            omega
          · refine ⟨[⟨makerId, takerId, (Storage.getOrd st makerId).price,
                min (Storage.getOrd st takerId).quantity
                  (Storage.getOrd st makerId).quantity⟩], ?_, ?_, ?_⟩
            · rw [Storage.getOrd_id hhm, Storage.getOrd_id hht]
            · rw [fillStep_taker_qty _ _ htm hht]
              simp [tradeQtyPref]
            · intro m hm2
              match m with
              | 0 =>
                refine ⟨makerId, hmem, ?_⟩
                simp [tradeQtyPref_zero]
              | Nat.succ m2 =>
                simp at hm2

end MatchingEngine

/-! ### matchSide specification -/

theorem sideIds_nil : sideIds [] = [] := rfl

theorem sideIds_cons (l : PriceLevel) (ls : List PriceLevel) :
    sideIds (l :: ls) = l.orders ++ sideIds ls := rfl

theorem mem_sideIds_iff {i : Nat} {ls : List PriceLevel} :
    i ∈ sideIds ls ↔ ∃ l ∈ ls, i ∈ l.orders := by
  induction ls with
  | nil => simp [sideIds]
  | cons l ls ih =>
    simp only [sideIds_cons, List.mem_append, ih, List.mem_cons]
    constructor
    · rintro (h1 | ⟨l2, h2, h3⟩)
      · exact ⟨l, Or.inl rfl, h1⟩
      · exact ⟨l2, Or.inr h2, h3⟩
    · rintro ⟨l2, h2 | h2, h3⟩
      · exact Or.inl (h2 ▸ h3)
      · exact Or.inr ⟨l2, h2, h3⟩

namespace MatchingEngine

/-- Full specification of one matching walk (`MatchingEngine::match` on one
side).  The surviving level list is a price-suffix of the input; the walk
removes a prefix of the side's resting order ids, erasing exactly the fully
filled makers from the index; level sums stay correct; untouched orders keep
their storage cells; ids, sides, prices and original quantities are never
written; if the taker still has quantity, the walk stopped on an empty side or
on a level that fails the crossing test; and the emitted trades are exactly
the maker-priced fills of the walk, in order. -/
theorem matchSide_spec (stop : Int → Int → Bool) (takerId : Nat) :
    ∀ (levels : List PriceLevel) (st : Storage) (idx : List Nat) (ts : List Trade),
      Storage.hasId st takerId = true →
      takerId ∉ sideIds levels →
      (sideIds levels).Nodup →
      (∀ l ∈ levels, l.orders ≠ [] ∧ l.totalQty = idsQty st l.orders ∧
        ∀ i ∈ l.orders, Storage.hasId st i = true) →
      ∀ stOut idxOut levelsOut tsOut,
        matchSide stop takerId st idx levels ts = (stOut, idxOut, levelsOut, tsOut) →
        (∃ k, k ≤ levels.length ∧ sidePrices levelsOut = (sidePrices levels).drop k) ∧
        (∃ r, sideIds levels = r ++ sideIds levelsOut ∧
          (∀ j, j ∈ idxOut ↔ j ∈ idx ∧ j ∉ r)) ∧
        (∀ l ∈ levelsOut, l.orders ≠ [] ∧ l.totalQty = idsQty stOut l.orders ∧
          ∀ i ∈ l.orders, Storage.hasId stOut i = true) ∧
        (∀ l ∈ levelsOut, ∃ l0 ∈ levels, l.price = l0.price ∧
          ∀ i ∈ l.orders, i ∈ l0.orders) ∧
        (∀ j, j ≠ takerId → j ∉ sideIds levels →
          Storage.getOrd stOut j = Storage.getOrd st j) ∧
        (∀ j, (Storage.getOrd stOut j).id = (Storage.getOrd st j).id ∧
          (Storage.getOrd stOut j).side = (Storage.getOrd st j).side ∧
          (Storage.getOrd stOut j).price = (Storage.getOrd st j).price ∧
          (Storage.getOrd stOut j).originalQty = (Storage.getOrd st j).originalQty ∧
          Storage.hasId stOut j = Storage.hasId st j) ∧
        (0 < (Storage.getOrd stOut takerId).quantity →
          levelsOut = [] ∨ ∃ l0 ls0, levelsOut = l0 :: ls0 ∧
            stop l0.price ((Storage.getOrd stOut takerId).price) = true) ∧
        stOut.map (fun o => o.id) = st.map (fun o => o.id) ∧
        (∃ new, tsOut = ts ++ new ∧
          ∀ m (hm2 : m < new.length), ∃ mid ∈ sideIds levels,
            new.get ⟨m, hm2⟩ = ⟨mid, takerId, (Storage.getOrd st mid).price,
              min ((Storage.getOrd st takerId).quantity - tradeQtyPref new m)
                (Storage.getOrd st mid).quantity⟩) := by
  intro levels
  induction levels with
  | nil =>
    intro st idx ts hht hTnotin hnd hwf stOut idxOut levelsOut tsOut heq
    rw [matchSide] at heq
    simp only [Prod.mk.injEq] at heq
    obtain ⟨rfl, rfl, rfl, rfl⟩ := heq
    refine ⟨⟨0, Nat.zero_le _, rfl⟩, ⟨[], rfl, fun j => by simp⟩,
      fun l hl => absurd hl (List.not_mem_nil l), fun l hl => absurd hl (List.not_mem_nil l),
      fun j _ _ => rfl, fun j => ⟨rfl, rfl, rfl, rfl, rfl⟩, fun h1 => Or.inl rfl,
      rfl, ⟨[], by simp, fun m hm2 => by simp at hm2⟩⟩
  | cons level rest ih =>
    intro st idx ts hht hTnotin hnd hwf stOut idxOut levelsOut tsOut heq
    have hTlevel : takerId ∉ level.orders :=
      fun h1 => hTnotin (sideIds_cons _ _ ▸ List.mem_append.mpr (Or.inl h1))
    have hTrest : takerId ∉ sideIds rest :=
      fun h1 => hTnotin (sideIds_cons _ _ ▸ List.mem_append.mpr (Or.inr h1))
    have hndlevel : level.orders.Nodup := by
      rw [sideIds_cons] at hnd
      exact hnd.of_append_left
    have hndrest : (sideIds rest).Nodup := by
      rw [sideIds_cons] at hnd
      exact hnd.of_append_right
    have hdisj : ∀ a, a ∈ level.orders → a ∉ sideIds rest := by
      rw [sideIds_cons] at hnd
      exact fun a ha hb => List.disjoint_of_nodup_append hnd ha hb
    rw [matchSide] at heq
    split at heq
    · rename_i hq0
      simp only [Prod.mk.injEq] at heq
      obtain ⟨rfl, rfl, rfl, rfl⟩ := heq
      refine ⟨⟨0, Nat.zero_le _, rfl⟩, ⟨[], rfl, fun j => by simp⟩, ?_, ?_,
        fun j _ _ => rfl, fun j => ⟨rfl, rfl, rfl, rfl, rfl⟩, ?_,
        rfl, ⟨[], by simp, fun m hm2 => by simp at hm2⟩⟩
      · exact hwf
      · exact fun l hl => ⟨l, hl, rfl, fun i hi => hi⟩
      · intro h1
        rw [hq0] at h1
        cases h1
    · split at heq
      · rename_i hq0 hstop
        simp only [Prod.mk.injEq] at heq
        obtain ⟨rfl, rfl, rfl, rfl⟩ := heq
        refine ⟨⟨0, Nat.zero_le _, rfl⟩, ⟨[], rfl, fun j => by simp⟩, ?_, ?_,
          fun j _ _ => rfl, fun j => ⟨rfl, rfl, rfl, rfl, rfl⟩, ?_,
          rfl, ⟨[], by simp, fun m hm2 => by simp at hm2⟩⟩
        · exact hwf
        · exact fun l hl => ⟨l, hl, rfl, fun i hi => hi⟩
        · intro _
          exact Or.inr ⟨level, rest, rfl, hstop⟩
      · rename_i hq0 hstop
        -- the head level crosses: it is filled first
        obtain ⟨hwf1, hwf2, hwf3⟩ := hwf level (List.mem_cons_self _ _)
        split at heq
        rename_i st1 level1 idx1 ts1 hfill
        obtain ⟨hp1, ⟨k1, hk1, hdrop1, hidx1⟩, hstab1, hkeep1, hmap1⟩ :=
          fillLevel_basic takerId level.orders.length st level idx ts (Nat.le_refl _)
            st1 level1 idx1 ts1 hfill
        obtain ⟨hsum1, hzero1, ⟨new1, hts1, hqty1, htr1⟩⟩ :=
          fillLevel_main takerId level.orders.length st level idx ts (Nat.le_refl _)
            hht hTlevel hndlevel hwf2 hwf3 st1 level1 idx1 ts1 hfill
        split at heq
        · -- the level was drained: it is cleaned away and the walk continues
          rename_i hempty
          have hlv1nil : level1.orders = [] := List.isEmpty_iff.mp hempty
          have htake1 : ∀ j, j ∈ level.orders → j ∈ level.orders.take k1 := by
            intro j hj
            have : level.orders = level.orders.take k1 ++ level.orders.drop k1 :=
              (List.take_append_drop k1 level.orders).symm
            rw [← hdrop1, hlv1nil, List.append_nil] at this
            exact this ▸ hj
          have hrests : ∀ l, l ∈ rest → l.orders ≠ [] ∧
              l.totalQty = idsQty st1 l.orders ∧
              ∀ i ∈ l.orders, Storage.hasId st1 i = true := by
            intro l hl
            obtain ⟨hw1, hw2, hw3⟩ := hwf l (List.mem_cons_of_mem _ hl)
            refine ⟨hw1, ?_, ?_⟩
            · rw [hw2]
              apply idsQty_congr
              intro i hi
              have hine : i ≠ takerId := by
                intro h1
                exact hTrest (h1 ▸ mem_sideIds_iff.mpr ⟨l, hl, hi⟩)
              have hinl : i ∉ level.orders := by
                intro h1
                exact hdisj i h1 (mem_sideIds_iff.mpr ⟨l, hl, hi⟩)
              rw [hstab1 i hine hinl]
            · intro i hi
              rw [(hkeep1 i).2.2.2.2]
              exact hw3 i hi
          obtain ⟨⟨k2, hk2, hpr2⟩, ⟨r2, hr2, hidx2⟩, hwfOut, hlvl0, hstab2, hkeep2,
              hstop2, hmap2, ⟨new2, hts2, htr2⟩⟩ :=
            ih st1 idx1 ts1 (by rw [(hkeep1 takerId).2.2.2.2]; exact hht)
              hTrest hndrest hrests stOut idxOut levelsOut tsOut heq
          refine ⟨⟨k2 + 1, by simpa using Nat.succ_le_succ hk2, by
              simpa [sidePrices] using hpr2⟩, ?_, hwfOut, ?_, ?_, ?_, hstop2,
              by rw [hmap2, hmap1], ?_⟩
          · refine ⟨level.orders ++ r2, ?_, ?_⟩
            · rw [sideIds_cons, hr2, List.append_assoc]
            · intro j
              rw [hidx2 j, hidx1 j]
              simp only [List.mem_append, not_or]
              constructor
              · rintro ⟨⟨hj1, hj2⟩, hj3⟩
                exact ⟨hj1, fun h1 => hj2 (htake1 j h1), hj3⟩
              · rintro ⟨hj1, hj2, hj3⟩
                exact ⟨⟨hj1, fun h1 => hj2 (List.take_subset _ _ h1)⟩, hj3⟩
          · intro l hl
            obtain ⟨l0, hl0, hl0p, hl0o⟩ := hlvl0 l hl
            exact ⟨l0, List.mem_cons_of_mem _ hl0, hl0p, hl0o⟩
          · intro j hjt hjm
            rw [hstab2 j hjt (fun h1 => hjm (sideIds_cons _ _ ▸
                List.mem_append.mpr (Or.inr h1))),
              hstab1 j hjt (fun h1 => hjm (sideIds_cons _ _ ▸
                List.mem_append.mpr (Or.inl h1)))]
          · intro j
            obtain ⟨a1, a2, a3, a4, a5⟩ := hkeep2 j
            obtain ⟨b1, b2, b3, b4, b5⟩ := hkeep1 j
            exact ⟨by rw [a1, b1], by rw [a2, b2], by rw [a3, b3], by rw [a4, b4],
              by rw [a5, b5]⟩
          · refine ⟨new1 ++ new2, by rw [hts2, hts1, List.append_assoc], ?_⟩
            intro m hm2
            by_cases hmlt : m < new1.length
            · obtain ⟨mid, hmid, hval⟩ := htr1 m hmlt
              refine ⟨mid, sideIds_cons _ _ ▸ List.mem_append.mpr (Or.inl hmid), ?_⟩
              have hget : (new1 ++ new2).get ⟨m, hm2⟩ = new1.get ⟨m, hmlt⟩ :=
                List.getElem_append_left hmlt
              rw [hget, hval]
              have hpref : tradeQtyPref (new1 ++ new2) m = tradeQtyPref new1 m := by
                unfold tradeQtyPref
                rw [List.take_append_of_le_length (Nat.le_of_lt hmlt)]
              rw [hpref]
            · push_neg at hmlt
              have hm3 : m - new1.length < new2.length := by
                have := hm2
                rw [List.length_append] at this
                omega
              obtain ⟨mid, hmid, hval⟩ := htr2 (m - new1.length) hm3
              have hmid_rest : mid ∈ sideIds rest := hmid
              have hmid_ne_t : mid ≠ takerId := fun h1 => hTrest (h1 ▸ hmid_rest)
              have hmid_nl : mid ∉ level.orders := fun h1 => hdisj mid h1 hmid_rest
              refine ⟨mid, sideIds_cons _ _ ▸ List.mem_append.mpr (Or.inr hmid_rest), ?_⟩
              have hget : (new1 ++ new2).get ⟨m, hm2⟩ =
                  new2.get ⟨m - new1.length, hm3⟩ := by
                apply List.getElem_append_right hmlt
              rw [hget, hval]
              rw [hstab1 mid hmid_ne_t hmid_nl]
              have hpref : tradeQtyPref (new1 ++ new2) m =
                  tradeQtyPref new1 new1.length + tradeQtyPref new2 (m - new1.length) := by
                unfold tradeQtyPref
                rw [List.take_append_eq_append_take, List.take_of_length_le hmlt,
                    List.take_length, List.map_append, List.sum_append]
              rw [hpref, hqty1]
              congr 2
              omega
        · -- the level survives: the taker is exhausted and the walk stops here
          rename_i hempty
          have hlv1ne : level1.orders ≠ [] := by
            intro h1
            rw [h1] at hempty
            simp at hempty
          simp only [Prod.mk.injEq] at heq
          obtain ⟨rfl, rfl, rfl, rfl⟩ := heq
          have hzq : (Storage.getOrd st1 takerId).quantity = 0 := hzero1 hlv1ne
          refine ⟨⟨0, Nat.zero_le _, by simp [sidePrices, hp1]⟩, ?_, ?_, ?_, ?_, hkeep1, ?_,
            hmap1, ?_⟩
          · refine ⟨level.orders.take k1, ?_, ?_⟩
            · rw [sideIds_cons, sideIds_cons, hdrop1]
              rw [← List.append_assoc, List.take_append_drop]
            · intro j
              rw [hidx1 j]
          · intro l hl
            rcases List.mem_cons.mp hl with h1 | h1
            · subst h1
              refine ⟨hlv1ne, hsum1, ?_⟩
              intro i hi
              rw [(hkeep1 i).2.2.2.2]
              exact hwf3 i (hdrop1 ▸ hi |> List.drop_subset _ _)
            · obtain ⟨hw1, hw2, hw3⟩ := hwf l (List.mem_cons_of_mem _ h1)
              refine ⟨hw1, ?_, ?_⟩
              · rw [hw2]
                apply idsQty_congr
                intro i hi
                have hine : i ≠ takerId := by
                  intro h2
                  exact hTrest (h2 ▸ mem_sideIds_iff.mpr ⟨l, h1, hi⟩)
                have hinl : i ∉ level.orders := by
                  intro h2
                  exact hdisj i h2 (mem_sideIds_iff.mpr ⟨l, h1, hi⟩)
                rw [hstab1 i hine hinl]
              · intro i hi
                rw [(hkeep1 i).2.2.2.2]
                exact hw3 i hi
          · intro l hl
            rcases List.mem_cons.mp hl with h1 | h1
            · subst h1
              exact ⟨level, List.mem_cons_self _ _, hp1,
                fun i hi => hdrop1 ▸ hi |> List.drop_subset _ _⟩
            · exact ⟨l, List.mem_cons_of_mem _ h1, rfl, fun i hi => hi⟩
          · intro j hjt hjm
            exact hstab1 j hjt
              (fun h1 => hjm (sideIds_cons _ _ ▸ List.mem_append.mpr (Or.inl h1)))
          · intro h1
            rw [hzq] at h1
            cases h1
          · refine ⟨new1, hts1, ?_⟩
            intro m hm2
            obtain ⟨mid, hmid, hval⟩ := htr1 m hm2
            exact ⟨mid, sideIds_cons _ _ ▸ List.mem_append.mpr (Or.inl hmid), hval⟩

end MatchingEngine

/-! ### Sorted side-map lemmas -/

/-- The properties of a `std::map` comparator (strict weak order on a total
order): both `std::greater<Price>` (bids) and `std::less<Price>` (asks)
satisfy them. -/
structure StrictCmp (cmp : Int → Int → Bool) : Prop where
  asymm : ∀ a b, cmp a b = true → cmp b a = false
  trans : ∀ a b c, cmp a b = true → cmp b c = true → cmp a c = true
  conn : ∀ a b, a ≠ b → cmp a b = true ∨ cmp b a = true

theorem bidCmp_strict : StrictCmp OrderBook.bidCmp := by
  constructor
  · intro a b h
    simp only [OrderBook.bidCmp, decide_eq_true_eq, decide_eq_false_iff_not, not_lt] at *
    omega
  · intro a b c h1 h2
    simp only [OrderBook.bidCmp, decide_eq_true_eq] at *
    omega
  · intro a b h
    simp only [OrderBook.bidCmp, decide_eq_true_eq]
    omega

theorem askCmp_strict : StrictCmp OrderBook.askCmp := by
  constructor
  · intro a b h
    simp only [OrderBook.askCmp, decide_eq_true_eq, decide_eq_false_iff_not, not_lt] at *
    omega
  · intro a b c h1 h2
    simp only [OrderBook.askCmp, decide_eq_true_eq] at *
    omega
  · intro a b h
    simp only [OrderBook.askCmp, decide_eq_true_eq]
    omega

/-- One side's map is sorted: its keys are pairwise in comparator order. -/
def sideSorted (cmp : Int → Int → Bool) (ls : List PriceLevel) : Prop :=
  (sidePrices ls).Pairwise (fun a b => cmp a b = true)

theorem sidePrices_nil : sidePrices [] = [] := rfl

theorem sidePrices_cons (l : PriceLevel) (ls : List PriceLevel) :
    sidePrices (l :: ls) = l.price :: sidePrices ls := rfl

/-- Price-key membership after `emplaceAdd`. -/
theorem emplaceAdd_prices (cmp : Int → Int → Bool) (st : Storage) (p : Int)
    (i : Nat) : ∀ ls q, q ∈ sidePrices (emplaceAdd cmp st p i ls) ↔
      q ∈ sidePrices ls ∨ q = p := by
  intro ls
  induction ls with
  | nil =>
    intro q
    simp [emplaceAdd, sidePrices, PriceLevel.addOrder]
  | cons l ls ih =>
    intro q
    rw [emplaceAdd]
    by_cases h1 : l.price = p
    · rw [if_pos h1]
      simp only [sidePrices_cons, List.mem_cons, PriceLevel.addOrder]
      constructor
      · rintro (h2 | h2)
        · exact Or.inl (Or.inl h2)
        · exact Or.inl (Or.inr h2)
      · rintro ((h2 | h2) | h2)
        · exact Or.inl h2
        · exact Or.inr h2
        · exact Or.inl (h1 ▸ h2)
    · rw [if_neg h1]
      by_cases h2 : cmp p l.price = true
      · rw [if_pos h2]
        simp only [sidePrices_cons, List.mem_cons, PriceLevel.addOrder]
        tauto
      · rw [if_neg h2]
        simp only [sidePrices_cons, List.mem_cons, ih q]
        tauto

/-- `emplaceAdd` preserves the map's sortedness. -/
theorem emplaceAdd_sorted (cmp : Int → Int → Bool) (hc : StrictCmp cmp)
    (st : Storage) (p : Int) (i : Nat) :
    ∀ ls, sideSorted cmp ls → sideSorted cmp (emplaceAdd cmp st p i ls) := by
  intro ls
  induction ls with
  | nil =>
    intro _
    simp [emplaceAdd, sideSorted, sidePrices, PriceLevel.addOrder]
  | cons l ls ih =>
    intro hs
    rw [sideSorted, sidePrices_cons, List.pairwise_cons] at hs
    obtain ⟨hhead, htail⟩ := hs
    rw [emplaceAdd]
    by_cases h1 : l.price = p
    · rw [if_pos h1]
      rw [sideSorted, sidePrices_cons, List.pairwise_cons]
      exact ⟨by simpa [PriceLevel.addOrder] using hhead, htail⟩
    · rw [if_neg h1]
      by_cases h2 : cmp p l.price = true
      · rw [if_pos h2]
        rw [sideSorted, sidePrices_cons, List.pairwise_cons]
        constructor
        · intro q hq
          rw [sidePrices_cons, List.mem_cons] at hq
          show cmp p q = true
          rcases hq with h3 | h3
          · exact h3 ▸ h2
          · exact hc.trans _ _ _ h2 (hhead q h3)
        · rw [sidePrices_cons]
          exact List.pairwise_cons.mpr ⟨hhead, htail⟩
      · rw [if_neg h2]
        rw [sideSorted, sidePrices_cons, List.pairwise_cons]
        constructor
        · intro q hq
          rcases (emplaceAdd_prices cmp st p i ls q).mp hq with h3 | h3
          · exact hhead q h3
          · subst h3
            rcases hc.conn _ l.price (fun h4 => h1 h4.symm) with h4 | h4
            · exact absurd h4 h2
            · exact h4
        · exact ih htail

/-- `emplaceAdd` appends exactly the new pointer to the side's resting ids. -/
theorem emplaceAdd_ids (cmp : Int → Int → Bool) (st : Storage) (p : Int)
    (i : Nat) : ∀ ls, (sideIds (emplaceAdd cmp st p i ls)).Perm (i :: sideIds ls) := by
  intro ls
  induction ls with
  | nil => simp [emplaceAdd, sideIds, PriceLevel.addOrder]
  | cons l ls ih =>
    rw [emplaceAdd]
    by_cases h1 : l.price = p
    · rw [if_pos h1]
      simp only [sideIds_cons, PriceLevel.addOrder, List.append_assoc,
        List.singleton_append]
      exact List.perm_middle
    · rw [if_neg h1]
      by_cases h2 : cmp p l.price = true
      · rw [if_pos h2]
        simp [sideIds_cons, PriceLevel.addOrder]
      · rw [if_neg h2]
        simp only [sideIds_cons]
        exact (List.Perm.append_left l.orders ih).trans List.perm_middle

/-- `PriceLevel::addOrder` keeps a level well-formed when the added order
matches the level's price and side. -/
theorem addOrder_wf {st : Storage} {l : PriceLevel} {i : Nat} {sd : Side}
    (hip : (st.getOrd i).price = l.price) (his : (st.getOrd i).side = sd)
    (hih : Storage.hasId st i = true)
    (hw : l.totalQty = idsQty st l.orders)
    (hmem : ∀ j ∈ l.orders, Storage.hasId st j = true ∧ (st.getOrd j).price = l.price ∧
      (st.getOrd j).side = sd) :
    (l.addOrder st i).orders ≠ [] ∧
    (l.addOrder st i).totalQty = idsQty st (l.addOrder st i).orders ∧
    ∀ j ∈ (l.addOrder st i).orders, Storage.hasId st j = true ∧
      (st.getOrd j).price = (l.addOrder st i).price ∧ (st.getOrd j).side = sd := by
  refine ⟨by simp [PriceLevel.addOrder], ?_, ?_⟩
  · simp [PriceLevel.addOrder, idsQty_append, idsQty_cons, idsQty_nil, hw]
  · intro j hj
    simp only [PriceLevel.addOrder, List.mem_append, List.mem_singleton] at hj
    rcases hj with h1 | h1
    · obtain ⟨a1, a2, a3⟩ := hmem j h1
      exact ⟨a1, a2, a3⟩
    · subst h1
      exact ⟨hih, hip, his⟩

/-- `emplaceAdd` keeps every level of the side well-formed. -/
theorem emplaceAdd_wf (cmp : Int → Int → Bool) (st : Storage) (p : Int) (i : Nat)
    (sd : Side) (hip : (st.getOrd i).price = p) (his : (st.getOrd i).side = sd)
    (hih : Storage.hasId st i = true) :
    ∀ ls, (∀ l ∈ ls, l.orders ≠ [] ∧ l.totalQty = idsQty st l.orders ∧
        ∀ j ∈ l.orders, Storage.hasId st j = true ∧ (st.getOrd j).price = l.price ∧
          (st.getOrd j).side = sd) →
      ∀ l ∈ emplaceAdd cmp st p i ls, l.orders ≠ [] ∧ l.totalQty = idsQty st l.orders ∧
        ∀ j ∈ l.orders, Storage.hasId st j = true ∧ (st.getOrd j).price = l.price ∧
          (st.getOrd j).side = sd := by
  intro ls
  induction ls with
  | nil =>
    intro _ l hl
    rw [emplaceAdd] at hl
    simp only [List.mem_singleton] at hl
    subst hl
    exact addOrder_wf hip his hih (by simp [idsQty_nil]) (by simp)
  | cons l0 ls ih =>
    intro hwf l hl
    rw [emplaceAdd] at hl
    by_cases h1 : l0.price = p
    · rw [if_pos h1] at hl
      rcases List.mem_cons.mp hl with h2 | h2
      · subst h2
        obtain ⟨hw1, hw2, hw3⟩ := hwf l0 (List.mem_cons_self _ _)
        exact addOrder_wf (h1 ▸ hip) his hih hw2 hw3
      · exact hwf l (List.mem_cons_of_mem _ h2)
    · rw [if_neg h1] at hl
      by_cases h2 : cmp p l0.price = true
      · rw [if_pos h2] at hl
        rcases List.mem_cons.mp hl with h3 | h3
        · subst h3
          exact addOrder_wf hip his hih (by simp [idsQty_nil]) (by simp)
        · exact hwf l h3
      · rw [if_neg h2] at hl
        rcases List.mem_cons.mp hl with h3 | h3
        · subst h3
          exact hwf l (List.mem_cons_self _ _)
        · exact ih (fun l2 hl2 => hwf l2 (List.mem_cons_of_mem _ hl2)) l h3

/-- `std::map::find` keyed by price, as used by cancel/modify. -/
def levelAt? (p : Int) (ls : List PriceLevel) : Option PriceLevel :=
  ls.find? (fun l => l.price == p)

/-- After `emplaceAdd`, the level keyed `p` exists and its FIFO queue ends
with the freshly appended pointer: a newly rested order sits at the tail of
its level. -/
theorem emplaceAdd_levelAt (cmp : Int → Int → Bool) (st : Storage) (p : Int)
    (i : Nat) : ∀ ls, ∃ lvl, levelAt? p (emplaceAdd cmp st p i ls) = some lvl ∧
      lvl.orders.getLast? = some i ∧ lvl.price = p := by
  intro ls
  induction ls with
  | nil =>
    refine ⟨PriceLevel.addOrder st ⟨p, [], 0⟩ i, ?_, by simp [PriceLevel.addOrder], rfl⟩
    rw [emplaceAdd, levelAt?]
    rw [List.find?_cons_of_pos]
    simp [PriceLevel.addOrder]
  | cons l ls ih =>
    rw [emplaceAdd]
    by_cases h1 : l.price = p
    · refine ⟨l.addOrder st i, ?_, ?_, h1⟩
      · rw [if_pos h1, levelAt?]
        rw [List.find?_cons_of_pos]
        simp [PriceLevel.addOrder, h1]
      · simp [PriceLevel.addOrder]
    · rw [if_neg h1]
      by_cases h2 : cmp p l.price = true
      · refine ⟨PriceLevel.addOrder st ⟨p, [], 0⟩ i, ?_, by simp [PriceLevel.addOrder], rfl⟩
        rw [if_pos h2, levelAt?]
        rw [List.find?_cons_of_pos]
        simp [PriceLevel.addOrder]
      · rw [if_neg h2]
        obtain ⟨lvl, hfind, hlast, hprice⟩ := ih
        refine ⟨lvl, ?_, hlast, hprice⟩
        rw [levelAt?, List.find?_cons_of_neg]
        · exact hfind
        · simp [h1]

/-- Sum of remaining quantities after an in-place write through the pointer of
a member of the list. -/
theorem idsQty_setQty_mem {st : Storage} {i : Nat} (v : Nat) {is : List Nat}
    (hmem : i ∈ is) (hnd : is.Nodup) (hih : Storage.hasId st i = true) :
    idsQty (st.setQty i v) is = idsQty st is - (st.getOrd i).quantity + v := by
  have hperm : is.Perm (i :: is.erase i) := List.perm_cons_erase hmem
  have hni : i ∉ is.erase i := (List.nodup_cons.mp (hperm.nodup hnd)).1
  rw [idsQty_perm (st.setQty i v) hperm, idsQty_perm st hperm, idsQty_cons, idsQty_cons,
      idsQty_setQty_not_mem v hni, Storage.getOrd_setQty_qty _ v hih]
  omega

theorem idsQty_erase {st : Storage} {i : Nat} {is : List Nat}
    (hmem : i ∈ is) (hnd : is.Nodup) :
    idsQty st (is.erase i) = idsQty st is - (st.getOrd i).quantity ∧
    (st.getOrd i).quantity ≤ idsQty st is := by
  have hperm : is.Perm (i :: is.erase i) := List.perm_cons_erase hmem
  rw [idsQty_perm st hperm, idsQty_cons]
  omega

/-- Unfolding of `cancelInSide` on the owning level when the order is found. -/
theorem cancelInSide_cons_found (st : Storage) (p : Int) (i : Nat)
    (l : PriceLevel) (ls : List PriceLevel) (h1 : l.price = p) (h2 : i ∈ l.orders) :
    cancelInSide st p i (l :: ls) =
      if (l.orders.erase i).isEmpty then ls
      else (⟨l.price, l.orders.erase i,
        l.totalQty - (st.getOrd i).quantity⟩ : PriceLevel) :: ls := by
  rw [cancelInSide, if_pos h1]
  simp only [PriceLevel.removeOrder, removeOrder_go_eq_some h2]

/-- Unfolding of `cancelInSide` when the keyed level does not hold the order:
`removeOrder` fails and nothing changes. -/
theorem cancelInSide_cons_notfound (st : Storage) (p : Int) (i : Nat)
    (l : PriceLevel) (ls : List PriceLevel) (h1 : l.price = p) (h2 : i ∉ l.orders)
    (h3 : l.orders ≠ []) :
    cancelInSide st p i (l :: ls) = l :: ls := by
  rw [cancelInSide, if_pos h1]
  simp only [PriceLevel.removeOrder, removeOrder_go_eq_none h2]
  rw [if_neg]
  simp only [List.isEmpty_iff]
  exact h3

/-- Full specification of the side-map half of `OrderBook::cancelOrder`:
the key list loses at most one key, the side's resting ids lose exactly the
cancelled id, sums stay correct, and every surviving level is a same-priced
sub-queue of an input level. -/
theorem cancelInSide_spec (st : Storage) (p : Int) (i : Nat) :
    ∀ ls, (sidePrices ls).Pairwise (fun a b => a ≠ b) →
      (∀ l ∈ ls, i ∈ l.orders → l.price = p) →
      (sideIds ls).Nodup →
      (∀ l ∈ ls, l.orders ≠ [] ∧ l.totalQty = idsQty st l.orders) →
      List.Sublist (sidePrices (cancelInSide st p i ls)) (sidePrices ls) ∧
      sideIds (cancelInSide st p i ls) = (sideIds ls).erase i ∧
      (∀ l ∈ cancelInSide st p i ls, l.orders ≠ [] ∧ l.totalQty = idsQty st l.orders) ∧
      (∀ l ∈ cancelInSide st p i ls, ∃ l0 ∈ ls, l.price = l0.price ∧
        ∀ j ∈ l.orders, j ∈ l0.orders) := by
  intro ls
  induction ls with
  | nil =>
    intro _ _ _ _
    exact ⟨List.Sublist.refl _, rfl, fun l hl => absurd hl (List.not_mem_nil _),
      fun l hl => absurd hl (List.not_mem_nil _)⟩
  | cons l ls ih =>
    intro hpne honly hnd hwf
    have hndl : l.orders.Nodup := by
      rw [sideIds_cons] at hnd
      exact hnd.of_append_left
    have hnds : (sideIds ls).Nodup := by
      rw [sideIds_cons] at hnd
      exact hnd.of_append_right
    by_cases h1 : l.price = p
    · have htail_ne : ∀ l2 ∈ ls, l2.price ≠ p := by
        intro l2 hl2 h2
        rw [sidePrices_cons, List.pairwise_cons] at hpne
        exact hpne.1 l2.price (by
          simp only [sidePrices, List.mem_map]
          exact ⟨l2, hl2, rfl⟩) (h1.trans h2.symm)
      have htail_ni : i ∉ sideIds ls := by
        intro h2
        obtain ⟨l2, hl2, hil2⟩ := mem_sideIds_iff.mp h2
        exact htail_ne l2 hl2 (honly l2 (List.mem_cons_of_mem _ hl2) hil2)
      by_cases h2 : i ∈ l.orders
      · rw [cancelInSide_cons_found st p i l ls h1 h2]
        obtain ⟨hqe, hqle⟩ := @idsQty_erase st i l.orders h2 hndl
        obtain ⟨hw1, hw2⟩ := hwf l (List.mem_cons_self _ _)
        by_cases h3 : (l.orders.erase i).isEmpty
        · rw [if_pos h3]
          refine ⟨?_, ?_, ?_, ?_⟩
          · rw [sidePrices_cons]
            exact List.sublist_cons_self _ _
          · rw [sideIds_cons, List.erase_append_left _ h2,
              List.isEmpty_iff.mp h3, List.nil_append]
          · exact fun l2 hl2 => hwf l2 (List.mem_cons_of_mem _ hl2)
          · exact fun l2 hl2 => ⟨l2, List.mem_cons_of_mem _ hl2, rfl, fun j hj => hj⟩
        · rw [if_neg h3]
          refine ⟨?_, ?_, ?_, ?_⟩
          · rw [sidePrices_cons, sidePrices_cons]
          · rw [sideIds_cons, sideIds_cons, List.erase_append_left _ h2]
          · intro l2 hl2
            rcases List.mem_cons.mp hl2 with h4 | h4
            · subst h4
              refine ⟨fun h5 => h3 (List.isEmpty_iff.mpr h5), ?_⟩
              show l.totalQty - (st.getOrd i).quantity = idsQty st (l.orders.erase i)
              omega
            · exact hwf l2 (List.mem_cons_of_mem _ h4)
          · intro l2 hl2
            rcases List.mem_cons.mp hl2 with h4 | h4
            · subst h4
              exact ⟨l, List.mem_cons_self _ _, rfl,
                fun j hj => List.mem_of_mem_erase hj⟩
            · exact ⟨l2, List.mem_cons_of_mem _ h4, rfl, fun j hj => hj⟩
      · rw [cancelInSide_cons_notfound st p i l ls h1 h2
          (hwf l (List.mem_cons_self _ _)).1]
        refine ⟨List.Sublist.refl _, ?_, hwf, ?_⟩
        · rw [List.erase_of_not_mem]
          rw [sideIds_cons]
          intro h4
          rcases List.mem_append.mp h4 with h5 | h5
          · exact h2 h5
          · exact htail_ni h5
        · exact fun l2 hl2 => ⟨l2, hl2, rfl, fun j hj => hj⟩
    · rw [cancelInSide, if_neg h1]
      have honly2 : ∀ l2 ∈ ls, i ∈ l2.orders → l2.price = p :=
        fun l2 hl2 => honly l2 (List.mem_cons_of_mem _ hl2)
      have hpne2 : (sidePrices ls).Pairwise (fun a b => a ≠ b) := by
        rw [sidePrices_cons, List.pairwise_cons] at hpne
        exact hpne.2
      obtain ⟨c1, c2, c3, c4⟩ := ih hpne2 honly2 hnds
        (fun l2 hl2 => hwf l2 (List.mem_cons_of_mem _ hl2))
      have hnil : i ∉ l.orders := fun h2 => h1 (honly l (List.mem_cons_self _ _) h2)
      refine ⟨?_, ?_, ?_, ?_⟩
      · rw [sidePrices_cons, sidePrices_cons]
        exact List.Sublist.cons₂ _ c1
      · rw [sideIds_cons, sideIds_cons, List.erase_append_right _ hnil, c2]
      · intro l2 hl2
        rcases List.mem_cons.mp hl2 with h4 | h4
        · subst h4
          exact hwf l2 (List.mem_cons_self _ _)
        · exact c3 l2 h4
      · intro l2 hl2
        rcases List.mem_cons.mp hl2 with h4 | h4
        · subst h4
          exact ⟨l2, List.mem_cons_self _ _, rfl, fun j hj => hj⟩
        · obtain ⟨l0, hl0, hl0p, hl0o⟩ := c4 l2 h4
          exact ⟨l0, List.mem_cons_of_mem _ hl0, hl0p, hl0o⟩

/-- Full specification of the side-map half of `OrderBook::modifyQuantity`:
keys and resting ids are unchanged, and after the in-place quantity write the
cached total of the owning level (reduced by the removed amount) again equals
the sum over its queue. -/
theorem adjustInSide_spec (st : Storage) (p : Int) (i : Nat) (newQty : Nat)
    (hih : Storage.hasId st i = true)
    (hlt : newQty < (st.getOrd i).quantity) :
    ∀ ls, (sidePrices ls).Pairwise (fun a b => a ≠ b) →
      (∀ l ∈ ls, i ∈ l.orders → l.price = p) →
      (∀ l ∈ ls, l.price = p → i ∈ l.orders) →
      (sideIds ls).Nodup →
      (∀ l ∈ ls, l.orders ≠ [] ∧ l.totalQty = idsQty st l.orders) →
      sidePrices (adjustInSide p ((st.getOrd i).quantity - newQty) ls) = sidePrices ls ∧
      sideIds (adjustInSide p ((st.getOrd i).quantity - newQty) ls) = sideIds ls ∧
      (∀ l ∈ adjustInSide p ((st.getOrd i).quantity - newQty) ls,
        l.orders ≠ [] ∧ l.totalQty = idsQty (st.setQty i newQty) l.orders) ∧
      (∀ l ∈ adjustInSide p ((st.getOrd i).quantity - newQty) ls, ∃ l0 ∈ ls,
        l.price = l0.price ∧ ∀ j ∈ l.orders, j ∈ l0.orders) := by
  intro ls
  induction ls with
  | nil =>
    intro _ _ _ _ _
    exact ⟨rfl, rfl, fun l hl => absurd hl (List.not_mem_nil _),
      fun l hl => absurd hl (List.not_mem_nil _)⟩
  | cons l ls ih =>
    intro hpne honly hsome hnd hwf
    have hndl : l.orders.Nodup := by
      rw [sideIds_cons] at hnd
      exact hnd.of_append_left
    have hnds : (sideIds ls).Nodup := by
      rw [sideIds_cons] at hnd
      exact hnd.of_append_right
    rw [adjustInSide]
    by_cases h1 : l.price = p
    · rw [if_pos h1]
      have h2 : i ∈ l.orders := hsome l (List.mem_cons_self _ _) h1
      have htail_ne : ∀ l2 ∈ ls, l2.price ≠ p := by
        intro l2 hl2 h3
        rw [sidePrices_cons, List.pairwise_cons] at hpne
        exact hpne.1 l2.price (by
          simp only [sidePrices, List.mem_map]
          exact ⟨l2, hl2, rfl⟩) (h1.trans h3.symm)
      obtain ⟨hw1, hw2⟩ := hwf l (List.mem_cons_self _ _)
      have hqle : (st.getOrd i).quantity ≤ idsQty st l.orders :=
        (idsQty_erase h2 hndl).2
      refine ⟨?_, ?_, ?_, ?_⟩
      · rw [sidePrices_cons, sidePrices_cons]
        rfl
      · rw [sideIds_cons, sideIds_cons]
        rfl
      · intro l2 hl2
        rcases List.mem_cons.mp hl2 with h4 | h4
        · subst h4
          refine ⟨hw1, ?_⟩
          show l.totalQty - ((st.getOrd i).quantity - newQty) =
            idsQty (st.setQty i newQty) l.orders
          rw [idsQty_setQty_mem newQty h2 hndl hih]
          omega
        · obtain ⟨hv1, hv2⟩ := hwf l2 (List.mem_cons_of_mem _ h4)
          refine ⟨hv1, ?_⟩
          rw [hv2]
          refine (idsQty_setQty_not_mem newQty ?_).symm
          intro h5
          exact htail_ne l2 h4 (honly l2 (List.mem_cons_of_mem _ h4) h5)
      · intro l2 hl2
        rcases List.mem_cons.mp hl2 with h4 | h4
        · subst h4
          exact ⟨l, List.mem_cons_self _ _, rfl, fun j hj => hj⟩
        · exact ⟨l2, List.mem_cons_of_mem _ h4, rfl, fun j hj => hj⟩
    · rw [if_neg h1]
      have hnil : i ∉ l.orders := fun h2 => h1 (honly l (List.mem_cons_self _ _) h2)
      obtain ⟨c1, c2, c3, c4⟩ := ih
        (by rw [sidePrices_cons, List.pairwise_cons] at hpne; exact hpne.2)
        (fun l2 hl2 => honly l2 (List.mem_cons_of_mem _ hl2))
        (fun l2 hl2 => hsome l2 (List.mem_cons_of_mem _ hl2))
        hnds
        (fun l2 hl2 => hwf l2 (List.mem_cons_of_mem _ hl2))
      refine ⟨?_, ?_, ?_, ?_⟩
      · rw [sidePrices_cons, sidePrices_cons, c1]
      · rw [sideIds_cons, sideIds_cons, c2]
      · intro l2 hl2
        rcases List.mem_cons.mp hl2 with h4 | h4
        · subst h4
          obtain ⟨hv1, hv2⟩ := hwf l2 (List.mem_cons_self _ _)
          refine ⟨hv1, ?_⟩
          rw [hv2]
          exact (idsQty_setQty_not_mem newQty hnil).symm
        · exact c3 l2 h4
      · intro l2 hl2
        rcases List.mem_cons.mp hl2 with h4 | h4
        · subst h4
          exact ⟨l2, List.mem_cons_self _ _, rfl, fun j hj => hj⟩
        · obtain ⟨l0, hl0, hl0p, hl0o⟩ := c4 l2 h4
          exact ⟨l0, List.mem_cons_of_mem _ hl0, hl0p, hl0o⟩

/-! ### The engine invariant -/

theorem contains_iff_mem {l : List Nat} {a : Nat} : l.contains a = true ↔ a ∈ l :=
  List.elem_iff

/-- Head of the side map after an insertion: either the new key is now in
front, or the old front is still in front. -/
theorem emplaceAdd_head (cmp : Int → Int → Bool) (st : Storage) (p : Int)
    (i : Nat) : ∀ ls, ∃ l1 ls1, emplaceAdd cmp st p i ls = l1 :: ls1 ∧
      (l1.price = p ∨ ∃ l0 ls0, ls = l0 :: ls0 ∧ l1.price = l0.price) := by
  intro ls
  cases ls with
  | nil => exact ⟨_, _, by rw [emplaceAdd], Or.inl rfl⟩
  | cons l ls =>
    rw [emplaceAdd]
    by_cases h1 : l.price = p
    · rw [if_pos h1]
      exact ⟨_, _, rfl, Or.inl h1⟩
    · rw [if_neg h1]
      by_cases h2 : cmp p l.price = true
      · rw [if_pos h2]
        exact ⟨_, _, rfl, Or.inl rfl⟩
      · rw [if_neg h2]
        exact ⟨_, _, rfl, Or.inr ⟨l, ls, rfl, rfl⟩⟩

/-- Well-formedness of one side of the book with respect to the storage:
every level is non-empty, its cached total is the sum of its orders' remaining
quantities, and every resting pointer resolves to an order on this side at
the level's price. -/
def sideLevelWF (st : Storage) (sd : Side) (ls : List PriceLevel) : Prop :=
  ∀ l ∈ ls, l.orders ≠ [] ∧ l.totalQty = idsQty st l.orders ∧
    ∀ j ∈ l.orders, Storage.hasId st j = true ∧ (st.getOrd j).price = l.price ∧
      (st.getOrd j).side = sd

/-- Invariant C of the spec: the book never rests crossed or locked. -/
def OrderBook.noCross (b : OrderBook) : Prop :=
  ∀ pb ∈ b.bestBid, ∀ pa ∈ b.bestAsk, pb < pa

/-- All data-structure invariants of the engine, preserved by every public
operation (proved below) and used to settle the claims. -/
structure EngineInv (e : MatchingEngine) : Prop where
  bidsSorted : sideSorted OrderBook.bidCmp e.book.bids
  asksSorted : sideSorted OrderBook.askCmp e.book.asks
  bidsWF : sideLevelWF e.storage Side.Buy e.book.bids
  asksWF : sideLevelWF e.storage Side.Sell e.book.asks
  idsNodup : (sideIds e.book.bids ++ sideIds e.book.asks).Nodup
  indexIff : ∀ j, j ∈ e.book.index ↔
    j ∈ sideIds e.book.bids ++ sideIds e.book.asks
  storageNodup : (e.storage.map (fun o => o.id)).Nodup
  storageBound : ∀ o ∈ e.storage, 1 ≤ o.id ∧ o.id < e.nextOrderId
  nextPos : 1 ≤ e.nextOrderId
  nocross : e.book.noCross

theorem engineInv_init : EngineInv MatchingEngine.init := by
  refine ⟨?_, ?_, ?_, ?_, ?_, ?_, ?_, ?_, ?_, ?_⟩
  · exact List.Pairwise.nil
  · exact List.Pairwise.nil
  · intro l hl
    exact absurd hl (List.not_mem_nil l)
  · intro l hl
    exact absurd hl (List.not_mem_nil l)
  · exact List.nodup_nil
  · intro j
    simp [MatchingEngine.init, sideIds]
  · exact List.nodup_nil
  · intro o ho
    exact absurd ho (List.not_mem_nil o)
  · exact Nat.le_refl 1
  · intro pb hpb pa hpa
    simp [MatchingEngine.init, OrderBook.bestBid] at hpb

/-- An id below every storage bound cannot resolve. -/
theorem EngineInv.fresh_not_hasId {e : MatchingEngine} (h : EngineInv e) :
    Storage.hasId e.storage e.nextOrderId = false := by
  rw [← Bool.not_eq_true]
  intro h1
  obtain ⟨o, ho, hid⟩ := Storage.hasId_iff.mp h1
  exact absurd (hid ▸ (h.storageBound o ho).2) (Nat.lt_irrefl _)

theorem EngineInv.hasId_of_mem_side {e : MatchingEngine} (h : EngineInv e) {j : Nat}
    (hj : j ∈ sideIds e.book.bids ++ sideIds e.book.asks) :
    Storage.hasId e.storage j = true := by
  rcases List.mem_append.mp hj with h1 | h1
  · obtain ⟨l, hl, hjl⟩ := mem_sideIds_iff.mp h1
    exact (h.bidsWF l hl).2.2 j hjl |>.1
  · obtain ⟨l, hl, hjl⟩ := mem_sideIds_iff.mp h1
    exact (h.asksWF l hl).2.2 j hjl |>.1

theorem EngineInv.fresh_not_in_sides {e : MatchingEngine} (h : EngineInv e) :
    e.nextOrderId ∉ sideIds e.book.bids ++ sideIds e.book.asks := by
  intro h1
  have := h.hasId_of_mem_side h1
  rw [h.fresh_not_hasId] at this
  cases this

/-! ### Unfolding equations for submitOrder and addOrder -/

theorem pairwise_head_rel {R : Int → Int → Prop} {x : Int} {xs : List Int}
    (h : (x :: xs).Pairwise R) {y : Int} (hy : y ∈ x :: xs) : y = x ∨ R x y := by
  rcases List.mem_cons.mp hy with h1 | h1
  · exact Or.inl h1
  · exact Or.inr ((List.pairwise_cons.mp h).1 y h1)

theorem sideLevelWF_congr {st st2 : Storage} {sd : Side} {ls : List PriceLevel}
    (h : sideLevelWF st sd ls)
    (hg : ∀ j ∈ sideIds ls, Storage.getOrd st2 j = Storage.getOrd st j ∧
      Storage.hasId st2 j = Storage.hasId st j) :
    sideLevelWF st2 sd ls := by
  intro l hl
  obtain ⟨h1, h2, h3⟩ := h l hl
  refine ⟨h1, ?_, ?_⟩
  · rw [h2]
    apply idsQty_congr
    intro j hj
    rw [(hg j (mem_sideIds_iff.mpr ⟨l, hl, hj⟩)).1]
  · intro j hj
    have hgj := hg j (mem_sideIds_iff.mpr ⟨l, hl, hj⟩)
    rw [hgj.1, hgj.2]
    exact h3 j hj

theorem sideLevelWF_of_match {st0 st1 : Storage} {sd : Side}
    {levels levelsOut : List PriceLevel}
    (hwfOut : ∀ l ∈ levelsOut, l.orders ≠ [] ∧ l.totalQty = idsQty st1 l.orders ∧
      ∀ i ∈ l.orders, Storage.hasId st1 i = true)
    (hlvl0 : ∀ l ∈ levelsOut, ∃ l0 ∈ levels, l.price = l0.price ∧
      ∀ i ∈ l.orders, i ∈ l0.orders)
    (hkeep : ∀ j, (Storage.getOrd st1 j).price = (Storage.getOrd st0 j).price ∧
      (Storage.getOrd st1 j).side = (Storage.getOrd st0 j).side)
    (hpre : sideLevelWF st0 sd levels) :
    sideLevelWF st1 sd levelsOut := by
  intro l hl
  obtain ⟨h1, h2, h3⟩ := hwfOut l hl
  obtain ⟨l0, hl0, hp0, ho0⟩ := hlvl0 l hl
  refine ⟨h1, h2, ?_⟩
  intro j hj
  refine ⟨h3 j hj, ?_, ?_⟩
  · rw [(hkeep j).1, (hpre l0 hl0).2.2 j (ho0 j hj) |>.2.1, hp0]
  · rw [(hkeep j).2]
    exact (hpre l0 hl0).2.2 j (ho0 j hj) |>.2.2

namespace MatchingEngine

theorem submitOrder_buy_eq (e : MatchingEngine) (p : Int) (q : Nat)
    {st1 : Storage} {idx1 : List Nat} {asks1 : List PriceLevel} {ts : List Trade}
    (hm : matchSide buyStop e.nextOrderId
      (e.storage ++ [⟨e.nextOrderId, Side.Buy, p, q, q, 0⟩]) e.book.index e.book.asks []
      = (st1, idx1, asks1, ts)) :
    e.submitOrder Side.Buy p q =
      (if 0 < (st1.getOrd e.nextOrderId).quantity then
        ({ book := OrderBook.addOrder st1 ⟨e.book.bids, asks1, idx1⟩ e.nextOrderId,
           storage := st1, nextOrderId := e.nextOrderId + 1 }, ts)
      else
        ({ book := ⟨e.book.bids, asks1, idx1⟩, storage := st1,
           nextOrderId := e.nextOrderId + 1 }, ts)) := by
  rw [submitOrder]
  simp only []
  rw [hm]

theorem submitOrder_sell_eq (e : MatchingEngine) (p : Int) (q : Nat)
    {st1 : Storage} {idx1 : List Nat} {bids1 : List PriceLevel} {ts : List Trade}
    (hm : matchSide sellStop e.nextOrderId
      (e.storage ++ [⟨e.nextOrderId, Side.Sell, p, q, q, 0⟩]) e.book.index e.book.bids []
      = (st1, idx1, bids1, ts)) :
    e.submitOrder Side.Sell p q =
      (if 0 < (st1.getOrd e.nextOrderId).quantity then
        ({ book := OrderBook.addOrder st1 ⟨bids1, e.book.asks, idx1⟩ e.nextOrderId,
           storage := st1, nextOrderId := e.nextOrderId + 1 }, ts)
      else
        ({ book := ⟨bids1, e.book.asks, idx1⟩, storage := st1,
           nextOrderId := e.nextOrderId + 1 }, ts)) := by
  rw [submitOrder]
  simp only []
  rw [hm]

end MatchingEngine

theorem addOrder_buy_eq {st : Storage} {b : OrderBook} {i : Nat}
    (hs : (st.getOrd i).side = Side.Buy) :
    OrderBook.addOrder st b i =
      { bids := emplaceAdd OrderBook.bidCmp st (st.getOrd i).price i b.bids,
        asks := b.asks,
        index := if b.index.contains i then b.index else i :: b.index } := by
  rw [OrderBook.addOrder]
  simp only [hs]

theorem addOrder_sell_eq {st : Storage} {b : OrderBook} {i : Nat}
    (hs : (st.getOrd i).side = Side.Sell) :
    OrderBook.addOrder st b i =
      { bids := b.bids,
        asks := emplaceAdd OrderBook.askCmp st (st.getOrd i).price i b.asks,
        index := if b.index.contains i then b.index else i :: b.index } := by
  rw [OrderBook.addOrder]
  simp only [hs]

theorem append_fresh_getOrd {st : Storage} {o : Order}
    (hf : Storage.hasId st o.id = false) :
    (st ++ [o]).getOrd o.id = o ∧
    Storage.hasId (st ++ [o]) o.id = true ∧
    (∀ j, j ≠ o.id → (st ++ [o]).getOrd j = st.getOrd j) ∧
    (∀ j, j ≠ o.id → Storage.hasId (st ++ [o]) j = Storage.hasId st j) ∧
    (st ++ [o]).map (fun x => x.id) = st.map (fun x => x.id) ++ [o.id] := by
  refine ⟨?_, ?_, ?_, ?_, by simp⟩
  · rw [Storage.getOrd_append_right _ hf]
    simp [Storage.getOrd]
  · rw [Storage.hasId_append]
    simp [Storage.hasId, hf]
  · intro j hj
    by_cases h2 : Storage.hasId st j = true
    · exact Storage.getOrd_append_left _ h2
    · have h3 : Storage.hasId st j = false := Bool.not_eq_true _ ▸ h2
      rw [Storage.getOrd_append_right _ h3, Storage.getOrd_eq_dummy h3]
      have : (o.id == j) = false := by
        simp only [beq_eq_false_iff_ne, ne_eq]
        exact fun h4 => hj h4.symm
      simp only [Storage.getOrd, List.find?, this]
      rfl
  · intro j hj
    rw [Storage.hasId_append]
    have : Storage.hasId [o] j = false := by
      simp only [Storage.hasId, List.any_cons, List.any_nil, Bool.or_false,
        beq_eq_false_iff_ne, ne_eq]
      exact fun h4 => hj h4.symm
    rw [this, Bool.or_false]

theorem bestBid_mem_eq {b : OrderBook} {l : PriceLevel} {ls : List PriceLevel}
    (hEq : b.bids = l :: ls) {x : Int} (hx : x ∈ OrderBook.bestBid b) :
    x = l.price := by
  rw [OrderBook.bestBid, hEq] at hx
  exact (Option.some.inj (Option.mem_def.mp hx)).symm

theorem bestAsk_mem_eq {b : OrderBook} {l : PriceLevel} {ls : List PriceLevel}
    (hEq : b.asks = l :: ls) {x : Int} (hx : x ∈ OrderBook.bestAsk b) :
    x = l.price := by
  rw [OrderBook.bestAsk, hEq] at hx
  exact (Option.some.inj (Option.mem_def.mp hx)).symm

theorem bestBid_cons_mem {b : OrderBook} {l : PriceLevel} {ls : List PriceLevel}
    (hEq : b.bids = l :: ls) : l.price ∈ OrderBook.bestBid b := by
  rw [OrderBook.bestBid, hEq]
  exact Option.mem_def.mpr rfl

theorem bestAsk_cons_mem {b : OrderBook} {l : PriceLevel} {ls : List PriceLevel}
    (hEq : b.asks = l :: ls) : l.price ∈ OrderBook.bestAsk b := by
  rw [OrderBook.bestAsk, hEq]
  exact Option.mem_def.mpr rfl

theorem bestBid_nil {b : OrderBook} (hEq : b.bids = []) {x : Int}
    (hx : x ∈ OrderBook.bestBid b) : False := by
  rw [OrderBook.bestBid, hEq] at hx
  exact Option.noConfusion (Option.mem_def.mp hx)

theorem bestAsk_nil {b : OrderBook} (hEq : b.asks = []) {x : Int}
    (hx : x ∈ OrderBook.bestAsk b) : False := by
  rw [OrderBook.bestAsk, hEq] at hx
  exact Option.noConfusion (Option.mem_def.mp hx)

theorem submit_preserves_buy (e : MatchingEngine) (p : Int) (q : Nat)
    (h : EngineInv e) : EngineInv (e.submitOrder Side.Buy p q).1 := by
  obtain ⟨⟨st1, idx1, asks1, ts⟩, hms⟩ :
      ∃ r, MatchingEngine.matchSide MatchingEngine.buyStop e.nextOrderId
        (e.storage ++ [⟨e.nextOrderId, Side.Buy, p, q, q, 0⟩])
        e.book.index e.book.asks [] = r := ⟨_, rfl⟩
  have hfr : Storage.hasId e.storage e.nextOrderId = false := h.fresh_not_hasId
  obtain ⟨hg0, hh0, hgne, hhne, hmap0⟩ :=
    append_fresh_getOrd (o := ⟨e.nextOrderId, Side.Buy, p, q, q, 0⟩) hfr
  have hTa : e.nextOrderId ∉ sideIds e.book.asks :=
    fun h1 => h.fresh_not_in_sides (List.mem_append.mpr (Or.inr h1))
  have hTb : e.nextOrderId ∉ sideIds e.book.bids :=
    fun h1 => h.fresh_not_in_sides (List.mem_append.mpr (Or.inl h1))
  have hndA : (sideIds e.book.asks).Nodup := h.idsNodup.of_append_right
  have hndB : (sideIds e.book.bids).Nodup := h.idsNodup.of_append_left
  have hBdisjA : ∀ j ∈ sideIds e.book.bids, j ∉ sideIds e.book.asks :=
    fun j hj hj2 => List.disjoint_of_nodup_append h.idsNodup hj hj2
  have hwfA0 : sideLevelWF (e.storage ++ [⟨e.nextOrderId, Side.Buy, p, q, q, 0⟩])
      Side.Sell e.book.asks := by
    apply sideLevelWF_congr h.asksWF
    intro j hj
    have hjne : j ≠ e.nextOrderId := fun h1 => hTa (h1 ▸ hj)
    exact ⟨hgne j hjne, hhne j hjne⟩
  obtain ⟨⟨k, hk, hpr⟩, ⟨r, hrEq, hidxIff⟩, hwfOut, hlvl0, hstab, hkeep, hstopF,
      hmapF, ⟨new, htsEq, htrF⟩⟩ :=
    MatchingEngine.matchSide_spec MatchingEngine.buyStop e.nextOrderId e.book.asks _ _ _
      hh0 hTa hndA (fun l hl => ⟨(hwfA0 l hl).1, (hwfA0 l hl).2.1,
        fun i hi => ((hwfA0 l hl).2.2 i hi).1⟩) st1 idx1 asks1 ts hms
  -- facts about the taker's storage cell after the walk
  have hside1 : (st1.getOrd e.nextOrderId).side = Side.Buy := by
    rw [(hkeep e.nextOrderId).2.1, hg0]
  have hprice1 : (st1.getOrd e.nextOrderId).price = p := by
    rw [(hkeep e.nextOrderId).2.2.1, hg0]
  have hid1 : (st1.getOrd e.nextOrderId).id = e.nextOrderId := by
    rw [(hkeep e.nextOrderId).1, hg0]
  have hhas1 : Storage.hasId st1 e.nextOrderId = true := by
    rw [(hkeep e.nextOrderId).2.2.2.2]
    exact hh0
  -- the bid side is untouched by the walk
  have hwfB1 : sideLevelWF st1 Side.Buy e.book.bids := by
    apply sideLevelWF_congr h.bidsWF
    intro j hj
    have hjne : j ≠ e.nextOrderId := fun h1 => hTb (h1 ▸ hj)
    refine ⟨?_, ?_⟩
    · rw [hstab j hjne (hBdisjA j hj), hgne j hjne]
    · rw [(hkeep j).2.2.2.2, hhne j hjne]
  have hwfA1 : sideLevelWF st1 Side.Sell asks1 :=
    sideLevelWF_of_match hwfOut hlvl0
      (fun j => ⟨(hkeep j).2.2.1, (hkeep j).2.1⟩) hwfA0
  have hsortA1 : sideSorted OrderBook.askCmp asks1 := by
    rw [sideSorted, hpr]
    exact List.Pairwise.sublist (List.drop_sublist _ _) h.asksSorted
  -- decomposition of the ask ids
  have hA1sub : ∀ j ∈ sideIds asks1, j ∈ sideIds e.book.asks := by
    intro j hj
    rw [hrEq]
    exact List.mem_append.mpr (Or.inr hj)
  have hRsub : ∀ j ∈ r, j ∈ sideIds e.book.asks := by
    intro j hj
    rw [hrEq]
    exact List.mem_append.mpr (Or.inl hj)
  have hRA1 : ∀ j ∈ r, j ∉ sideIds asks1 := by
    intro j hj hj2
    have := hrEq ▸ hndA
    exact List.disjoint_of_nodup_append this hj hj2
  have hndA1 : (sideIds asks1).Nodup := (hrEq ▸ hndA).of_append_right
  have hndBA1 : (sideIds e.book.bids ++ sideIds asks1).Nodup := by
    apply List.Nodup.sublist _ h.idsNodup
    apply List.Sublist.append_left
    rw [hrEq]
    exact List.sublist_append_right r _
  have hidx1Iff : ∀ j, j ∈ idx1 ↔
      j ∈ sideIds e.book.bids ++ sideIds asks1 := by
    intro j
    rw [hidxIff j, h.indexIff j]
    simp only [List.mem_append]
    constructor
    · rintro ⟨hI | hI, hnr⟩
      · exact Or.inl hI
      · rw [hrEq, List.mem_append] at hI
        rcases hI with h1 | h1
        · exact absurd h1 hnr
        · exact Or.inr h1
    · rintro (hI | hI)
      · exact ⟨Or.inl hI, fun h1 => hBdisjA j hI (hRsub j h1)⟩
      · exact ⟨Or.inr (hA1sub j hI), fun h1 => hRA1 j h1 hI⟩
  have hmap1 : st1.map (fun o => o.id) =
      e.storage.map (fun o => o.id) ++ [e.nextOrderId] := by
    rw [hmapF, hmap0]
  have hstNodup1 : (st1.map (fun o => o.id)).Nodup := by
    rw [hmap1]
    apply List.Nodup.append h.storageNodup (List.nodup_singleton _)
    intro a ha hb
    rw [List.mem_singleton] at hb
    subst hb
    obtain ⟨o, ho, hoid⟩ := List.mem_map.mp ha
    exact absurd (hoid ▸ (h.storageBound o ho).2) (Nat.lt_irrefl _)
  have hbound1 : ∀ o ∈ st1, 1 ≤ o.id ∧ o.id < e.nextOrderId + 1 := by
    intro o ho
    have : o.id ∈ st1.map (fun o => o.id) := List.mem_map.mpr ⟨o, ho, rfl⟩
    rw [hmap1] at this
    rcases List.mem_append.mp this with h1 | h1
    · obtain ⟨o0, ho0, hoid⟩ := List.mem_map.mp h1
      have := h.storageBound o0 ho0
      omega
    · rw [List.mem_singleton] at h1
      have := h.nextPos
      omega
  -- the old ask side is a price-suffix: any surviving best ask is at least the old best
  have hA1head : ∀ la lsa, asks1 = la :: lsa →
      ∃ la0 lsa0, e.book.asks = la0 :: lsa0 ∧
        (la.price = la0.price ∨ OrderBook.askCmp la0.price la.price = true) := by
    intro la lsa hEq
    cases hasks : e.book.asks with
    | nil =>
      rw [hasks] at hpr
      rw [hEq] at hpr
      simp [sidePrices] at hpr
    | cons la0 lsa0 =>
      refine ⟨la0, lsa0, rfl, ?_⟩
      have hmem : la.price ∈ sidePrices e.book.asks := by
        have : la.price ∈ sidePrices asks1 := by
          rw [hEq, sidePrices_cons]
          exact List.mem_cons_self _ _
        rw [hpr] at this
        exact List.mem_of_mem_drop this
      rw [hasks, sidePrices_cons] at hmem
      have hs := h.asksSorted
      rw [hasks, sideSorted, sidePrices_cons] at hs
      rcases pairwise_head_rel hs hmem with h1 | h1
      · exact Or.inl h1
      · exact Or.inr h1
  by_cases hrest : 0 < (st1.getOrd e.nextOrderId).quantity
  · rw [MatchingEngine.submitOrder_buy_eq e p q hms, if_pos hrest]
    rw [addOrder_buy_eq hside1]
    have hcont : ¬ (idx1.contains e.nextOrderId = true) := by
      rw [contains_iff_mem, hidx1Iff]
      intro h1
      rcases List.mem_append.mp h1 with h2 | h2
      · exact hTb h2
      · exact hTa (hA1sub _ h2)
    rw [if_neg hcont]
    -- the emplace on the bid side
    obtain ⟨lb1, lsb1, hbEq, hbHead⟩ :=
      emplaceAdd_head OrderBook.bidCmp st1 ((st1.getOrd e.nextOrderId).price)
        e.nextOrderId e.book.bids
    have hpermB : (sideIds (emplaceAdd OrderBook.bidCmp st1
        ((st1.getOrd e.nextOrderId).price) e.nextOrderId e.book.bids)).Perm
        (e.nextOrderId :: sideIds e.book.bids) :=
      emplaceAdd_ids _ _ _ _ _
    refine ⟨?_, ?_, ?_, ?_, ?_, ?_, ?_, ?_, ?_, ?_⟩
    · exact emplaceAdd_sorted _ bidCmp_strict _ _ _ _ h.bidsSorted
    · exact hsortA1
    · exact emplaceAdd_wf _ _ _ _ _ rfl hside1 hhas1 _ hwfB1
    · exact hwfA1
    · show ((sideIds (emplaceAdd _ _ _ _ _)) ++ sideIds asks1).Nodup
      rw [List.Perm.nodup_iff (List.Perm.append_right _ hpermB)]
      rw [List.cons_append, List.nodup_cons]
      refine ⟨?_, hndBA1⟩
      intro h1
      rcases List.mem_append.mp h1 with h2 | h2
      · exact hTb h2
      · exact hTa (hA1sub _ h2)
    · intro j
      show j ∈ e.nextOrderId :: idx1 ↔ _
      rw [List.mem_cons, hidx1Iff j]
      rw [List.mem_append, List.mem_append,
        List.Perm.mem_iff hpermB, List.mem_cons]
      tauto
    · exact hstNodup1
    · exact hbound1
    · exact Nat.le_add_left 1 e.nextOrderId
    · intro pb hpb pa hpa
      have hpb2 : pb = lb1.price := bestBid_mem_eq hbEq hpb
      cases hasks1 : asks1 with
      | nil => exact absurd hpa (fun h1 => bestAsk_nil hasks1 h1)
      | cons la lsa =>
        have hpa2 : pa = la.price := bestAsk_mem_eq hasks1 hpa
        obtain ⟨la0, lsa0, hasksEq, hla0⟩ := hA1head la lsa hasks1
        rcases hbHead with h3 | ⟨lb0, lsb0, hbidsEq, h3⟩
        · -- the new bid head is the taker: its price stops against the ask head
          have hstop2 := hstopF hrest
          rcases hstop2 with h1 | ⟨l0, ls0, h1, h2⟩
          · rw [hasks1] at h1
            cases h1
          · have hla : la = l0 := by
              rw [hasks1, List.cons.injEq] at h1
              exact h1.1
            rw [← hla] at h2
            have hcross : (st1.getOrd e.nextOrderId).price < la.price := by
              simpa [MatchingEngine.buyStop] using h2
            omega
        · -- the new bid head keeps the old best bid price: use the old no-cross
          have h4 := h.nocross lb0.price (bestBid_cons_mem (b := e.book) hbidsEq)
            la0.price (bestAsk_cons_mem (b := e.book) hasksEq)
          rcases hla0 with h5 | h5
          · omega
          · simp only [OrderBook.askCmp, decide_eq_true_eq] at h5
            omega
  · rw [MatchingEngine.submitOrder_buy_eq e p q hms, if_neg hrest]
    refine ⟨h.bidsSorted, hsortA1, hwfB1, hwfA1, hndBA1, hidx1Iff, hstNodup1,
      hbound1, Nat.le_add_left 1 e.nextOrderId, ?_⟩
    intro pb hpb pa hpa
    cases hbids : e.book.bids with
    | nil => exact absurd hpb (fun h1 => bestBid_nil hbids h1)
    | cons lb0 lsb0 =>
      have hpb2 : pb = lb0.price := bestBid_mem_eq hbids hpb
      cases hasks1 : asks1 with
      | nil => exact absurd hpa (fun h1 => bestAsk_nil hasks1 h1)
      | cons la lsa =>
        have hpa2 : pa = la.price := bestAsk_mem_eq hasks1 hpa
        obtain ⟨la0, lsa0, hasksEq, hla0⟩ := hA1head la lsa hasks1
        have h3 := h.nocross lb0.price (bestBid_cons_mem (b := e.book) hbids)
          la0.price (bestAsk_cons_mem (b := e.book) hasksEq)
        rcases hla0 with h4 | h4
        · omega
        · simp only [OrderBook.askCmp, decide_eq_true_eq] at h4
          omega

theorem submit_preserves_sell (e : MatchingEngine) (p : Int) (q : Nat)
    (h : EngineInv e) : EngineInv (e.submitOrder Side.Sell p q).1 := by
  obtain ⟨⟨st1, idx1, bids1, ts⟩, hms⟩ :
      ∃ r, MatchingEngine.matchSide MatchingEngine.sellStop e.nextOrderId
        (e.storage ++ [⟨e.nextOrderId, Side.Sell, p, q, q, 0⟩])
        e.book.index e.book.bids [] = r := ⟨_, rfl⟩
  have hfr : Storage.hasId e.storage e.nextOrderId = false := h.fresh_not_hasId
  obtain ⟨hg0, hh0, hgne, hhne, hmap0⟩ :=
    append_fresh_getOrd (o := ⟨e.nextOrderId, Side.Sell, p, q, q, 0⟩) hfr
  have hTa : e.nextOrderId ∉ sideIds e.book.asks :=
    fun h1 => h.fresh_not_in_sides (List.mem_append.mpr (Or.inr h1))
  have hTb : e.nextOrderId ∉ sideIds e.book.bids :=
    fun h1 => h.fresh_not_in_sides (List.mem_append.mpr (Or.inl h1))
  have hndA : (sideIds e.book.asks).Nodup := h.idsNodup.of_append_right
  have hndB : (sideIds e.book.bids).Nodup := h.idsNodup.of_append_left
  have hAdisjB : ∀ j ∈ sideIds e.book.asks, j ∉ sideIds e.book.bids :=
    fun j hj hj2 => List.disjoint_of_nodup_append h.idsNodup hj2 hj
  have hwfB0 : sideLevelWF (e.storage ++ [⟨e.nextOrderId, Side.Sell, p, q, q, 0⟩])
      Side.Buy e.book.bids := by
    apply sideLevelWF_congr h.bidsWF
    intro j hj
    have hjne : j ≠ e.nextOrderId := fun h1 => hTb (h1 ▸ hj)
    exact ⟨hgne j hjne, hhne j hjne⟩
  obtain ⟨⟨k, hk, hpr⟩, ⟨r, hrEq, hidxIff⟩, hwfOut, hlvl0, hstab, hkeep, hstopF,
      hmapF, ⟨new, htsEq, htrF⟩⟩ :=
    MatchingEngine.matchSide_spec MatchingEngine.sellStop e.nextOrderId e.book.bids _ _ _
      hh0 hTb hndB (fun l hl => ⟨(hwfB0 l hl).1, (hwfB0 l hl).2.1,
        fun i hi => ((hwfB0 l hl).2.2 i hi).1⟩) st1 idx1 bids1 ts hms
  -- facts about the taker's storage cell after the walk
  have hside1 : (st1.getOrd e.nextOrderId).side = Side.Sell := by
    rw [(hkeep e.nextOrderId).2.1, hg0]
  have hprice1 : (st1.getOrd e.nextOrderId).price = p := by
    rw [(hkeep e.nextOrderId).2.2.1, hg0]
  have hhas1 : Storage.hasId st1 e.nextOrderId = true := by
    rw [(hkeep e.nextOrderId).2.2.2.2]
    exact hh0
  -- the ask side is untouched by the walk
  have hwfA1 : sideLevelWF st1 Side.Sell e.book.asks := by
    apply sideLevelWF_congr h.asksWF
    intro j hj
    have hjne : j ≠ e.nextOrderId := fun h1 => hTa (h1 ▸ hj)
    refine ⟨?_, ?_⟩
    · rw [hstab j hjne (hAdisjB j hj), hgne j hjne]
    · rw [(hkeep j).2.2.2.2, hhne j hjne]
  have hwfB1 : sideLevelWF st1 Side.Buy bids1 :=
    sideLevelWF_of_match hwfOut hlvl0
      (fun j => ⟨(hkeep j).2.2.1, (hkeep j).2.1⟩) hwfB0
  have hsortB1 : sideSorted OrderBook.bidCmp bids1 := by
    rw [sideSorted, hpr]
    exact List.Pairwise.sublist (List.drop_sublist _ _) h.bidsSorted
  -- decomposition of the bid ids
  have hB1sub : ∀ j ∈ sideIds bids1, j ∈ sideIds e.book.bids := by
    intro j hj
    rw [hrEq]
    exact List.mem_append.mpr (Or.inr hj)
  have hRsub : ∀ j ∈ r, j ∈ sideIds e.book.bids := by
    intro j hj
    rw [hrEq]
    exact List.mem_append.mpr (Or.inl hj)
  have hRB1 : ∀ j ∈ r, j ∉ sideIds bids1 := by
    intro j hj hj2
    have := hrEq ▸ hndB
    exact List.disjoint_of_nodup_append this hj hj2
  have hndB1A : (sideIds bids1 ++ sideIds e.book.asks).Nodup := by
    apply List.Nodup.sublist _ h.idsNodup
    apply List.Sublist.append_right
    rw [hrEq]
    exact List.sublist_append_right r _
  have hidx1Iff : ∀ j, j ∈ idx1 ↔
      j ∈ sideIds bids1 ++ sideIds e.book.asks := by
    intro j
    rw [hidxIff j, h.indexIff j]
    simp only [List.mem_append]
    constructor
    · rintro ⟨hI | hI, hnr⟩
      · rw [hrEq, List.mem_append] at hI
        rcases hI with h1 | h1
        · exact absurd h1 hnr
        · exact Or.inl h1
      · exact Or.inr hI
    · rintro (hI | hI)
      · exact ⟨Or.inl (hB1sub j hI), fun h1 => hRB1 j h1 hI⟩
      · exact ⟨Or.inr hI, fun h1 => hAdisjB j hI (hRsub j h1)⟩
  have hmap1 : st1.map (fun o => o.id) =
      e.storage.map (fun o => o.id) ++ [e.nextOrderId] := by
    rw [hmapF, hmap0]
  have hstNodup1 : (st1.map (fun o => o.id)).Nodup := by
    rw [hmap1]
    apply List.Nodup.append h.storageNodup (List.nodup_singleton _)
    intro a ha hb
    rw [List.mem_singleton] at hb
    subst hb
    obtain ⟨o, ho, hoid⟩ := List.mem_map.mp ha
    exact absurd (hoid ▸ (h.storageBound o ho).2) (Nat.lt_irrefl _)
  have hbound1 : ∀ o ∈ st1, 1 ≤ o.id ∧ o.id < e.nextOrderId + 1 := by
    intro o ho
    have : o.id ∈ st1.map (fun o => o.id) := List.mem_map.mpr ⟨o, ho, rfl⟩
    rw [hmap1] at this
    rcases List.mem_append.mp this with h1 | h1
    · obtain ⟨o0, ho0, hoid⟩ := List.mem_map.mp h1
      have := h.storageBound o0 ho0
      omega
    · rw [List.mem_singleton] at h1
      have := h.nextPos
      omega
  -- the old bid side is a price-suffix: any surviving best bid is at most the old best
  have hB1head : ∀ lb lsb, bids1 = lb :: lsb →
      ∃ lb0 lsb0, e.book.bids = lb0 :: lsb0 ∧
        (lb.price = lb0.price ∨ OrderBook.bidCmp lb0.price lb.price = true) := by
    intro lb lsb hEq
    cases hbids : e.book.bids with
    | nil =>
      rw [hbids] at hpr
      rw [hEq] at hpr
      simp [sidePrices] at hpr
    | cons lb0 lsb0 =>
      refine ⟨lb0, lsb0, rfl, ?_⟩
      have hmem : lb.price ∈ sidePrices e.book.bids := by
        have : lb.price ∈ sidePrices bids1 := by
          rw [hEq, sidePrices_cons]
          exact List.mem_cons_self _ _
        rw [hpr] at this
        exact List.mem_of_mem_drop this
      rw [hbids, sidePrices_cons] at hmem
      have hs := h.bidsSorted
      rw [hbids, sideSorted, sidePrices_cons] at hs
      rcases pairwise_head_rel hs hmem with h1 | h1
      · exact Or.inl h1
      · exact Or.inr h1
  by_cases hrest : 0 < (st1.getOrd e.nextOrderId).quantity
  · rw [MatchingEngine.submitOrder_sell_eq e p q hms, if_pos hrest]
    rw [addOrder_sell_eq hside1]
    have hcont : ¬ (idx1.contains e.nextOrderId = true) := by
      rw [contains_iff_mem, hidx1Iff]
      intro h1
      rcases List.mem_append.mp h1 with h2 | h2
      · exact hTb (hB1sub _ h2)
      · exact hTa h2
    rw [if_neg hcont]
    -- the emplace on the ask side
    obtain ⟨la1, lsa1, haEq, haHead⟩ :=
      emplaceAdd_head OrderBook.askCmp st1 ((st1.getOrd e.nextOrderId).price)
        e.nextOrderId e.book.asks
    have hpermA : (sideIds (emplaceAdd OrderBook.askCmp st1
        ((st1.getOrd e.nextOrderId).price) e.nextOrderId e.book.asks)).Perm
        (e.nextOrderId :: sideIds e.book.asks) :=
      emplaceAdd_ids _ _ _ _ _
    -- the invariant for the rested case
    refine ⟨?_, ?_, ?_, ?_, ?_, ?_, ?_, ?_, ?_, ?_⟩
    · exact hsortB1
    · exact emplaceAdd_sorted _ askCmp_strict _ _ _ _ h.asksSorted
    · exact hwfB1
    · exact emplaceAdd_wf _ _ _ _ _ rfl hside1 hhas1 _ hwfA1
    · show (sideIds bids1 ++ sideIds (emplaceAdd _ _ _ _ _)).Nodup
      rw [List.Perm.nodup_iff (List.Perm.append_left _ hpermA)]
      rw [List.Perm.nodup_iff List.perm_middle]
      rw [List.nodup_cons]
      refine ⟨?_, hndB1A⟩
      intro h1
      rcases List.mem_append.mp h1 with h2 | h2
      · exact hTb (hB1sub _ h2)
      · exact hTa h2
    · intro j
      show j ∈ e.nextOrderId :: idx1 ↔ _
      rw [List.mem_cons, hidx1Iff j]
      rw [List.mem_append, List.mem_append,
        List.Perm.mem_iff hpermA, List.mem_cons]
      tauto
    · exact hstNodup1
    · exact hbound1
    · exact Nat.le_add_left 1 e.nextOrderId
    · intro pb hpb pa hpa
      have hpa2 : pa = la1.price := bestAsk_mem_eq haEq hpa
      cases hbids1 : bids1 with
      | nil => exact absurd hpb (fun h1 => bestBid_nil hbids1 h1)
      | cons lb lsb =>
        have hpb2 : pb = lb.price := bestBid_mem_eq hbids1 hpb
        obtain ⟨lb0, lsb0, hbidsEq, hlb0⟩ := hB1head lb lsb hbids1
        rcases haHead with h3 | ⟨la0, lsa0, hasksEq, h3⟩
        · -- the new ask head is the taker: its price stops against the bid head
          have hstop2 := hstopF hrest
          rcases hstop2 with h1 | ⟨l0, ls0, h1, h2⟩
          · rw [hbids1] at h1
            cases h1
          · have hlb : lb = l0 := by
              rw [hbids1, List.cons.injEq] at h1
              exact h1.1
            rw [← hlb] at h2
            have hcross : lb.price < (st1.getOrd e.nextOrderId).price := by
              simpa [MatchingEngine.sellStop] using h2
            omega
        · -- the new ask head keeps the old best ask price: use the old no-cross
          have h4 := h.nocross lb0.price (bestBid_cons_mem (b := e.book) hbidsEq)
            la0.price (bestAsk_cons_mem (b := e.book) hasksEq)
          rcases hlb0 with h5 | h5
          · omega
          · simp only [OrderBook.bidCmp, decide_eq_true_eq] at h5
            omega
  · rw [MatchingEngine.submitOrder_sell_eq e p q hms, if_neg hrest]
    refine ⟨hsortB1, h.asksSorted, hwfB1, hwfA1, hndB1A, hidx1Iff, hstNodup1,
      hbound1, Nat.le_add_left 1 e.nextOrderId, ?_⟩
    intro pb hpb pa hpa
    cases hbids1 : bids1 with
    | nil => exact absurd hpb (fun h1 => bestBid_nil hbids1 h1)
    | cons lb lsb =>
      have hpb2 : pb = lb.price := bestBid_mem_eq hbids1 hpb
      cases hasks : e.book.asks with
      | nil => exact absurd hpa (fun h1 => bestAsk_nil hasks h1)
      | cons la0 lsa0 =>
        have hpa2 : pa = la0.price := bestAsk_mem_eq hasks hpa
        obtain ⟨lb0, lsb0, hbidsEq, hlb0⟩ := hB1head lb lsb hbids1
        have h3 := h.nocross lb0.price (bestBid_cons_mem (b := e.book) hbidsEq)
          la0.price (bestAsk_cons_mem (b := e.book) hasks)
        rcases hlb0 with h4 | h4
        · omega
        · simp only [OrderBook.bidCmp, decide_eq_true_eq] at h4
          omega

theorem bestBid_mem_prices {b : OrderBook} {x : Int}
    (hx : x ∈ OrderBook.bestBid b) : x ∈ sidePrices b.bids := by
  cases hb : b.bids with
  | nil => exact absurd hx (fun h1 => bestBid_nil hb h1)
  | cons l ls =>
    rw [bestBid_mem_eq hb hx, sidePrices_cons]
    exact List.mem_cons_self _ _

theorem bestAsk_mem_prices {b : OrderBook} {x : Int}
    (hx : x ∈ OrderBook.bestAsk b) : x ∈ sidePrices b.asks := by
  cases hb : b.asks with
  | nil => exact absurd hx (fun h1 => bestAsk_nil hb h1)
  | cons l ls =>
    rw [bestAsk_mem_eq hb hx, sidePrices_cons]
    exact List.mem_cons_self _ _

/-- Removing levels can only worsen (or keep) each side's best price, so the
no-cross invariant survives any operation that shrinks the price sets. -/
theorem noCross_of_sub {b2 b : OrderBook}
    (hbs : sideSorted OrderBook.bidCmp b.bids)
    (has : sideSorted OrderBook.askCmp b.asks)
    (hnc : b.noCross)
    (hbsub : ∀ x ∈ sidePrices b2.bids, x ∈ sidePrices b.bids)
    (hasub : ∀ x ∈ sidePrices b2.asks, x ∈ sidePrices b.asks) :
    b2.noCross := by
  intro pb hpb pa hpa
  have hpb2 : pb ∈ sidePrices b.bids := hbsub pb (bestBid_mem_prices hpb)
  have hpa2 : pa ∈ sidePrices b.asks := hasub pa (bestAsk_mem_prices hpa)
  cases hb : b.bids with
  | nil =>
    rw [hb, sidePrices_nil] at hpb2
    cases hpb2
  | cons lb lsb =>
    cases ha : b.asks with
    | nil =>
      rw [ha, sidePrices_nil] at hpa2
      cases hpa2
    | cons la lsa =>
      rw [hb, sidePrices_cons] at hpb2
      rw [ha, sidePrices_cons] at hpa2
      rw [hb, sideSorted, sidePrices_cons] at hbs
      rw [ha, sideSorted, sidePrices_cons] at has
      have h1 := pairwise_head_rel hbs hpb2
      have h2 := pairwise_head_rel has hpa2
      have h3 := hnc lb.price (bestBid_cons_mem (b := b) hb)
        la.price (bestAsk_cons_mem (b := b) ha)
      simp only [OrderBook.bidCmp, OrderBook.askCmp, decide_eq_true_eq] at h1 h2
      omega

/-- Keys of a sorted side map are pairwise distinct. -/
theorem sorted_prices_ne {cmp : Int → Int → Bool} (hc : StrictCmp cmp)
    {ls : List PriceLevel} (h : sideSorted cmp ls) :
    (sidePrices ls).Pairwise (fun a b => a ≠ b) := by
  apply List.Pairwise.imp _ h
  intro a b hab
  intro hEq
  subst hEq
  have := hc.asymm a a hab
  rw [hab] at this
  cases this

theorem cancel_preserves (e : MatchingEngine) (i : Nat)
    (h : EngineInv e) : EngineInv (e.cancelOrder i).1 := by
  show EngineInv { e with book := (OrderBook.cancelOrder e.storage e.book i).1 }
  rw [OrderBook.cancelOrder]
  by_cases hc : e.book.index.contains i = true
  · rw [if_pos hc]
    simp only []
    have hmem : i ∈ sideIds e.book.bids ++ sideIds e.book.asks :=
      (h.indexIff i).mp (contains_iff_mem.mp hc)
    have hndA : (sideIds e.book.asks).Nodup := h.idsNodup.of_append_right
    have hndB : (sideIds e.book.bids).Nodup := h.idsNodup.of_append_left
    cases hside : (e.storage.getOrd i).side with
    | Buy =>
      simp only [hside]
      have hia : i ∉ sideIds e.book.asks := by
        intro h1
        obtain ⟨l, hl, hil⟩ := mem_sideIds_iff.mp h1
        have := ((h.asksWF l hl).2.2 i hil).2.2
        rw [hside] at this
        cases this
      obtain ⟨hSub, hIds, hWF2, hOrig⟩ :=
        cancelInSide_spec e.storage ((e.storage.getOrd i).price) i e.book.bids
          (sorted_prices_ne bidCmp_strict h.bidsSorted)
          (fun l hl hil => (((h.bidsWF l hl).2.2 i hil).2.1).symm)
          hndB
          (fun l hl => ⟨(h.bidsWF l hl).1, (h.bidsWF l hl).2.1⟩)
      refine ⟨?_, h.asksSorted, ?_, h.asksWF, ?_, ?_, h.storageNodup,
        h.storageBound, h.nextPos, ?_⟩
      · exact List.Pairwise.sublist hSub h.bidsSorted
      · intro l hl
        obtain ⟨l0, hl0, hpEq, hOsub⟩ := hOrig l hl
        refine ⟨(hWF2 l hl).1, (hWF2 l hl).2, ?_⟩
        intro j hj
        have h0 := (h.bidsWF l0 hl0).2.2 j (hOsub j hj)
        exact ⟨h0.1, by rw [h0.2.1, ← hpEq], h0.2.2⟩
      · show (sideIds (cancelInSide _ _ _ _) ++ sideIds e.book.asks).Nodup
        rw [hIds]
        apply List.Nodup.sublist _ h.idsNodup
        exact List.Sublist.append_right (List.erase_sublist _ _) _
      · intro j
        show j ∈ List.filter _ e.book.index ↔ _
        rw [List.mem_filter, h.indexIff j, hIds]
        simp only [List.mem_append, bne_iff_ne, ne_eq]
        constructor
        · rintro ⟨hI | hI, hne⟩
          · exact Or.inl ((List.Nodup.mem_erase_iff hndB).mpr ⟨hne, hI⟩)
          · exact Or.inr hI
        · rintro (hI | hI)
          · obtain ⟨hne, hI2⟩ := (List.Nodup.mem_erase_iff hndB).mp hI
            exact ⟨Or.inl hI2, hne⟩
          · exact ⟨Or.inr hI, fun hEq => hia (hEq ▸ hI)⟩
      · exact noCross_of_sub h.bidsSorted h.asksSorted h.nocross
          (fun x hx => hSub.subset hx) (fun x hx => hx)
    | Sell =>
      simp only [hside]
      have hib : i ∉ sideIds e.book.bids := by
        intro h1
        obtain ⟨l, hl, hil⟩ := mem_sideIds_iff.mp h1
        have := ((h.bidsWF l hl).2.2 i hil).2.2
        rw [hside] at this
        cases this
      obtain ⟨hSub, hIds, hWF2, hOrig⟩ :=
        cancelInSide_spec e.storage ((e.storage.getOrd i).price) i e.book.asks
          (sorted_prices_ne askCmp_strict h.asksSorted)
          (fun l hl hil => (((h.asksWF l hl).2.2 i hil).2.1).symm)
          hndA
          (fun l hl => ⟨(h.asksWF l hl).1, (h.asksWF l hl).2.1⟩)
      refine ⟨h.bidsSorted, ?_, h.bidsWF, ?_, ?_, ?_, h.storageNodup,
        h.storageBound, h.nextPos, ?_⟩
      · exact List.Pairwise.sublist hSub h.asksSorted
      · intro l hl
        obtain ⟨l0, hl0, hpEq, hOsub⟩ := hOrig l hl
        refine ⟨(hWF2 l hl).1, (hWF2 l hl).2, ?_⟩
        intro j hj
        have h0 := (h.asksWF l0 hl0).2.2 j (hOsub j hj)
        exact ⟨h0.1, by rw [h0.2.1, ← hpEq], h0.2.2⟩
      · show (sideIds e.book.bids ++ sideIds (cancelInSide _ _ _ _)).Nodup
        rw [hIds]
        apply List.Nodup.sublist _ h.idsNodup
        exact List.Sublist.append_left (List.erase_sublist _ _) _
      · intro j
        show j ∈ List.filter _ e.book.index ↔ _
        rw [List.mem_filter, h.indexIff j, hIds]
        simp only [List.mem_append, bne_iff_ne, ne_eq]
        constructor
        · rintro ⟨hI | hI, hne⟩
          · exact Or.inl hI
          · exact Or.inr ((List.Nodup.mem_erase_iff hndA).mpr ⟨hne, hI⟩)
        · rintro (hI | hI)
          · exact ⟨Or.inl hI, fun hEq => hib (hEq ▸ hI)⟩
          · obtain ⟨hne, hI2⟩ := (List.Nodup.mem_erase_iff hndA).mp hI
            exact ⟨Or.inr hI2, hne⟩
      · exact noCross_of_sub h.bidsSorted h.asksSorted h.nocross
          (fun x hx => hx) (fun x hx => hSub.subset hx)
  · rw [if_neg hc]
    exact h

/-- In a side map with pairwise-distinct keys, a price determines the level. -/
theorem level_price_unique : ∀ {ls : List PriceLevel},
    (sidePrices ls).Pairwise (fun a b => a ≠ b) →
    ∀ {l1 l2 : PriceLevel}, l1 ∈ ls → l2 ∈ ls → l1.price = l2.price → l1 = l2 := by
  intro ls
  induction ls with
  | nil =>
    intro _ l1 l2 h1
    exact absurd h1 (List.not_mem_nil _)
  | cons l ls ih =>
    intro hne l1 l2 h1 h2 hp
    rw [sidePrices_cons, List.pairwise_cons] at hne
    rcases List.mem_cons.mp h1 with he1 | he1 <;>
      rcases List.mem_cons.mp h2 with he2 | he2
    · rw [he1, he2]
    · subst he1
      exact absurd hp (hne.1 l2.price (List.mem_map.mpr ⟨l2, he2, rfl⟩))
    · subst he2
      exact absurd hp.symm (hne.1 l1.price (List.mem_map.mpr ⟨l1, he1, rfl⟩))
    · exact ih hne.2 he1 he2 hp

theorem modify_preserves (e : MatchingEngine) (i : Nat) (np : Int) (nq : Nat)
    (h : EngineInv e) : EngineInv (e.modifyOrder i np nq).1 := by
  rw [MatchingEngine.modifyOrder]
  cases hg : OrderBook.getOrder e.storage e.book i with
  | none => exact h
  | some ord =>
    simp only []
    have hc : e.book.index.contains i = true := by
      by_contra hc
      rw [OrderBook.getOrder, if_neg hc] at hg
      cases hg
    have hord : ord = e.storage.getOrd i := by
      rw [OrderBook.getOrder, if_pos hc] at hg
      exact (Option.some.inj hg).symm
    by_cases hp : np = ord.price
    · rw [if_pos hp]
      by_cases hq : nq ≥ ord.quantity
      · rw [if_pos hq]
        exact h
      · rw [if_neg hq]
        rw [OrderBook.modifyQuantity, if_pos hc]
        simp only []
        rw [hord] at hq
        rw [if_neg hq]
        have hlt : nq < (e.storage.getOrd i).quantity := Nat.lt_of_not_le hq
        have hmem : i ∈ sideIds e.book.bids ++ sideIds e.book.asks :=
          (h.indexIff i).mp (contains_iff_mem.mp hc)
        have hndA : (sideIds e.book.asks).Nodup := h.idsNodup.of_append_right
        have hndB : (sideIds e.book.bids).Nodup := h.idsNodup.of_append_left
        have hbound2 : ∀ o ∈ e.storage.setQty i nq,
            1 ≤ o.id ∧ o.id < e.nextOrderId := by
          intro o ho
          have : o.id ∈ (e.storage.setQty i nq).map (fun o => o.id) :=
            List.mem_map.mpr ⟨o, ho, rfl⟩
          rw [Storage.setQty_map_id] at this
          obtain ⟨o0, ho0, hoid⟩ := List.mem_map.mp this
          have := h.storageBound o0 ho0
          omega
        have hstnd2 : ((e.storage.setQty i nq).map (fun o => o.id)).Nodup := by
          rw [Storage.setQty_map_id]
          exact h.storageNodup
        cases hside : (e.storage.getOrd i).side with
        | Buy =>
          simp only [hside]
          have hia : i ∉ sideIds e.book.asks := by
            intro h1
            obtain ⟨l, hl, hil⟩ := mem_sideIds_iff.mp h1
            have := ((h.asksWF l hl).2.2 i hil).2.2
            rw [hside] at this
            cases this
          have hib : i ∈ sideIds e.book.bids := by
            rcases List.mem_append.mp hmem with h1 | h1
            · exact h1
            · exact absurd h1 hia
          obtain ⟨li, hli, hili⟩ := mem_sideIds_iff.mp hib
          have hih : Storage.hasId e.storage i = true :=
            ((h.bidsWF li hli).2.2 i hili).1
          obtain ⟨hPr, hIds, hWF2, hOrig⟩ :=
            adjustInSide_spec e.storage ((e.storage.getOrd i).price) i nq hih hlt
              e.book.bids
              (sorted_prices_ne bidCmp_strict h.bidsSorted)
              (fun l hl hil => (((h.bidsWF l hl).2.2 i hil).2.1).symm)
              (fun l hl hlp => by
                have hne := sorted_prices_ne bidCmp_strict h.bidsSorted
                have hlip : li.price = (e.storage.getOrd i).price :=
                  (((h.bidsWF li hli).2.2 i hili).2.1).symm
                have : l = li := level_price_unique hne hl hli (by rw [hlp, hlip])
                rw [this]
                exact hili)
              hndB
              (fun l hl => ⟨(h.bidsWF l hl).1, (h.bidsWF l hl).2.1⟩)
          refine ⟨?_, h.asksSorted, ?_, ?_, ?_, ?_, hstnd2, hbound2,
            h.nextPos, ?_⟩
          · show sideSorted _ (adjustInSide _ _ _)
            rw [sideSorted, hPr]
            exact h.bidsSorted
          · intro l hl
            obtain ⟨l0, hl0, hpEq, hOsub⟩ := hOrig l hl
            refine ⟨(hWF2 l hl).1, (hWF2 l hl).2, ?_⟩
            intro j hj
            have h0 := (h.bidsWF l0 hl0).2.2 j (hOsub j hj)
            refine ⟨?_, ?_, ?_⟩
            · rw [Storage.hasId_setQty]
              exact h0.1
            · rw [(Storage.getOrd_setQty_keep i nq j).2.2.1, h0.2.1, ← hpEq]
            · rw [(Storage.getOrd_setQty_keep i nq j).2.1]
              exact h0.2.2
          · intro l hl
            have h0 := h.asksWF l hl
            refine ⟨h0.1, ?_, ?_⟩
            · rw [h0.2.1]
              apply idsQty_congr
              intro j hj
              have hjne : j ≠ i := fun hEq =>
                hia (hEq ▸ mem_sideIds_iff.mpr ⟨l, hl, hj⟩)
              rw [Storage.getOrd_setQty_ne nq hjne]
            · intro j hj
              have hj0 := h0.2.2 j hj
              have hjne : j ≠ i := fun hEq =>
                hia (hEq ▸ mem_sideIds_iff.mpr ⟨l, hl, hj⟩)
              rw [Storage.hasId_setQty, Storage.getOrd_setQty_ne nq hjne]
              exact hj0
          · show (sideIds (adjustInSide _ _ _) ++ sideIds e.book.asks).Nodup
            rw [hIds]
            exact h.idsNodup
          · intro j
            show j ∈ e.book.index ↔ _
            rw [h.indexIff j, hIds]
          · exact noCross_of_sub h.bidsSorted h.asksSorted h.nocross
              (fun x hx => hPr ▸ hx) (fun x hx => hx)
        | Sell =>
          simp only [hside]
          have hib : i ∉ sideIds e.book.bids := by
            intro h1
            obtain ⟨l, hl, hil⟩ := mem_sideIds_iff.mp h1
            have := ((h.bidsWF l hl).2.2 i hil).2.2
            rw [hside] at this
            cases this
          have hia : i ∈ sideIds e.book.asks := by
            rcases List.mem_append.mp hmem with h1 | h1
            · exact absurd h1 hib
            · exact h1
          obtain ⟨li, hli, hili⟩ := mem_sideIds_iff.mp hia
          have hih : Storage.hasId e.storage i = true :=
            ((h.asksWF li hli).2.2 i hili).1
          obtain ⟨hPr, hIds, hWF2, hOrig⟩ :=
            adjustInSide_spec e.storage ((e.storage.getOrd i).price) i nq hih hlt
              e.book.asks
              (sorted_prices_ne askCmp_strict h.asksSorted)
              (fun l hl hil => (((h.asksWF l hl).2.2 i hil).2.1).symm)
              (fun l hl hlp => by
                have hne := sorted_prices_ne askCmp_strict h.asksSorted
                have hlip : li.price = (e.storage.getOrd i).price :=
                  (((h.asksWF li hli).2.2 i hili).2.1).symm
                have : l = li := level_price_unique hne hl hli (by rw [hlp, hlip])
                rw [this]
                exact hili)
              hndA
              (fun l hl => ⟨(h.asksWF l hl).1, (h.asksWF l hl).2.1⟩)
          refine ⟨h.bidsSorted, ?_, ?_, ?_, ?_, ?_, hstnd2, hbound2,
            h.nextPos, ?_⟩
          · show sideSorted _ (adjustInSide _ _ _)
            rw [sideSorted, hPr]
            exact h.asksSorted
          · intro l hl
            have h0 := h.bidsWF l hl
            refine ⟨h0.1, ?_, ?_⟩
            · rw [h0.2.1]
              apply idsQty_congr
              intro j hj
              have hjne : j ≠ i := fun hEq =>
                hib (hEq ▸ mem_sideIds_iff.mpr ⟨l, hl, hj⟩)
              rw [Storage.getOrd_setQty_ne nq hjne]
            · intro j hj
              have hj0 := h0.2.2 j hj
              have hjne : j ≠ i := fun hEq =>
                hib (hEq ▸ mem_sideIds_iff.mpr ⟨l, hl, hj⟩)
              rw [Storage.hasId_setQty, Storage.getOrd_setQty_ne nq hjne]
              exact hj0
          · intro l hl
            obtain ⟨l0, hl0, hpEq, hOsub⟩ := hOrig l hl
            refine ⟨(hWF2 l hl).1, (hWF2 l hl).2, ?_⟩
            intro j hj
            have h0 := (h.asksWF l0 hl0).2.2 j (hOsub j hj)
            refine ⟨?_, ?_, ?_⟩
            · rw [Storage.hasId_setQty]
              exact h0.1
            · rw [(Storage.getOrd_setQty_keep i nq j).2.2.1, h0.2.1, ← hpEq]
            · rw [(Storage.getOrd_setQty_keep i nq j).2.1]
              exact h0.2.2
          · show (sideIds e.book.bids ++ sideIds (adjustInSide _ _ _)).Nodup
            rw [hIds]
            exact h.idsNodup
          · intro j
            show j ∈ e.book.index ↔ _
            rw [h.indexIff j, hIds]
          · exact noCross_of_sub h.bidsSorted h.asksSorted h.nocross
              (fun x hx => hx) (fun x hx => hPr ▸ hx)
    · rw [if_neg hp]
      cases hside2 : ord.side with
      | Buy =>
        show EngineInv (((e.cancelOrder i).1).submitOrder Side.Buy np nq).1
        exact submit_preserves_buy _ np nq (cancel_preserves e i h)
      | Sell =>
        show EngineInv (((e.cancelOrder i).1).submitOrder Side.Sell np nq).1
        exact submit_preserves_sell _ np nq (cancel_preserves e i h)

/-- Every reachable engine satisfies the structural invariant. -/
theorem reachable_inv {e : MatchingEngine} (h : Reachable e) : EngineInv e := by
  induction h with
  | init => exact engineInv_init
  | submit s p q _ ih =>
    cases s with
    | Buy => exact submit_preserves_buy _ p q ih
    | Sell => exact submit_preserves_sell _ p q ih
  | cancel i _ ih => exact cancel_preserves _ i ih
  | modify i p q _ ih => exact modify_preserves _ i p q ih

theorem submit_spec_buy (e : MatchingEngine) (p : Int) (q : Nat)
    (h : EngineInv e) :
    (∀ m, m < ((e.submitOrder Side.Buy p q).2).length →
      ∃ mid ∈ sideIds e.book.asks,
        ((e.submitOrder Side.Buy p q).2).get? m =
          some ⟨mid, e.nextOrderId, (e.storage.getOrd mid).price,
            min (q - tradeQtyPref (e.submitOrder Side.Buy p q).2 m)
              ((e.storage.getOrd mid).quantity)⟩) ∧
    (∀ j ∈ (e.submitOrder Side.Buy p q).1.book.index,
      j = e.nextOrderId ∨ j ∈ e.book.index) ∧
    (0 < ((e.submitOrder Side.Buy p q).1.storage.getOrd e.nextOrderId).quantity →
      ∃ lvl, levelAt? p ((e.submitOrder Side.Buy p q).1.book.bids) = some lvl ∧
        lvl.orders.getLast? = some e.nextOrderId ∧ lvl.price = p) := by
  obtain ⟨⟨st1, idx1, asks1, ts⟩, hms⟩ :
      ∃ r, MatchingEngine.matchSide MatchingEngine.buyStop e.nextOrderId
        (e.storage ++ [⟨e.nextOrderId, Side.Buy, p, q, q, 0⟩])
        e.book.index e.book.asks [] = r := ⟨_, rfl⟩
  have hfr : Storage.hasId e.storage e.nextOrderId = false := h.fresh_not_hasId
  obtain ⟨hg0, hh0, hgne, hhne, hmap0⟩ :=
    append_fresh_getOrd (o := ⟨e.nextOrderId, Side.Buy, p, q, q, 0⟩) hfr
  have hTa : e.nextOrderId ∉ sideIds e.book.asks :=
    fun h1 => h.fresh_not_in_sides (List.mem_append.mpr (Or.inr h1))
  have hndA : (sideIds e.book.asks).Nodup := h.idsNodup.of_append_right
  have hwfA0 : sideLevelWF (e.storage ++ [⟨e.nextOrderId, Side.Buy, p, q, q, 0⟩])
      Side.Sell e.book.asks := by
    apply sideLevelWF_congr h.asksWF
    intro j hj
    have hjne : j ≠ e.nextOrderId := fun h1 => hTa (h1 ▸ hj)
    exact ⟨hgne j hjne, hhne j hjne⟩
  obtain ⟨⟨k, hk, hpr⟩, ⟨r, hrEq, hidxIff⟩, hwfOut, hlvl0, hstab, hkeep, hstopF,
      hmapF, ⟨new, htsEq, htrF⟩⟩ :=
    MatchingEngine.matchSide_spec MatchingEngine.buyStop e.nextOrderId e.book.asks _ _ _
      hh0 hTa hndA (fun l hl => ⟨(hwfA0 l hl).1, (hwfA0 l hl).2.1,
        fun i hi => ((hwfA0 l hl).2.2 i hi).1⟩) st1 idx1 asks1 ts hms
  have hside1 : (st1.getOrd e.nextOrderId).side = Side.Buy := by
    rw [(hkeep e.nextOrderId).2.1, hg0]
  have hprice1 : (st1.getOrd e.nextOrderId).price = p := by
    rw [(hkeep e.nextOrderId).2.2.1, hg0]
  have hg0q : (Storage.getOrd (e.storage ++ [⟨e.nextOrderId, Side.Buy, p, q, q, 0⟩])
      e.nextOrderId).quantity = q := by
    rw [show (Storage.getOrd (e.storage ++ [⟨e.nextOrderId, Side.Buy, p, q, q, 0⟩])
      e.nextOrderId) = ⟨e.nextOrderId, Side.Buy, p, q, q, 0⟩ from hg0]
  have hsnd : (e.submitOrder Side.Buy p q).2 = ts := by
    rw [MatchingEngine.submitOrder_buy_eq e p q hms]
    by_cases hrest : 0 < (st1.getOrd e.nextOrderId).quantity
    · rw [if_pos hrest]
    · rw [if_neg hrest]
  rw [List.nil_append] at htsEq
  refine ⟨?_, ?_, ?_⟩
  · intro m hm
    rw [hsnd, htsEq] at hm ⊢
    obtain ⟨mid, hmid, hEq⟩ := htrF m hm
    have hne : mid ≠ e.nextOrderId := fun h1 => hTa (h1 ▸ hmid)
    refine ⟨mid, hmid, ?_⟩
    rw [List.get?_eq_get hm, hEq, hgne mid hne, hg0q]
  · intro j hj
    rw [MatchingEngine.submitOrder_buy_eq e p q hms] at hj
    have hsub1 : j ∈ idx1 → j ∈ e.book.index := fun h1 => ((hidxIff j).mp h1).1
    by_cases hrest : 0 < (st1.getOrd e.nextOrderId).quantity
    · rw [if_pos hrest, addOrder_buy_eq hside1] at hj
      by_cases hc : idx1.contains e.nextOrderId = true
      · rw [if_pos hc] at hj
        exact Or.inr (hsub1 hj)
      · rw [if_neg hc] at hj
        rcases List.mem_cons.mp hj with h1 | h1
        · exact Or.inl h1
        · exact Or.inr (hsub1 h1)
    · rw [if_neg hrest] at hj
      exact Or.inr (hsub1 hj)
  · intro hrest2
    have hstor : (e.submitOrder Side.Buy p q).1.storage = st1 := by
      rw [MatchingEngine.submitOrder_buy_eq e p q hms]
      by_cases hrest : 0 < (st1.getOrd e.nextOrderId).quantity
      · rw [if_pos hrest]
      · rw [if_neg hrest]
    rw [hstor] at hrest2
    rw [MatchingEngine.submitOrder_buy_eq e p q hms, if_pos hrest2,
      addOrder_buy_eq hside1]
    show ∃ lvl, levelAt? p (emplaceAdd OrderBook.bidCmp st1
      ((st1.getOrd e.nextOrderId).price) e.nextOrderId e.book.bids) = some lvl ∧ _
    rw [hprice1]
    exact emplaceAdd_levelAt OrderBook.bidCmp st1 p e.nextOrderId e.book.bids

theorem submit_spec_sell (e : MatchingEngine) (p : Int) (q : Nat)
    (h : EngineInv e) :
    (∀ m, m < ((e.submitOrder Side.Sell p q).2).length →
      ∃ mid ∈ sideIds e.book.bids,
        ((e.submitOrder Side.Sell p q).2).get? m =
          some ⟨mid, e.nextOrderId, (e.storage.getOrd mid).price,
            min (q - tradeQtyPref (e.submitOrder Side.Sell p q).2 m)
              ((e.storage.getOrd mid).quantity)⟩) ∧
    (∀ j ∈ (e.submitOrder Side.Sell p q).1.book.index,
      j = e.nextOrderId ∨ j ∈ e.book.index) ∧
    (0 < ((e.submitOrder Side.Sell p q).1.storage.getOrd e.nextOrderId).quantity →
      ∃ lvl, levelAt? p ((e.submitOrder Side.Sell p q).1.book.asks) = some lvl ∧
        lvl.orders.getLast? = some e.nextOrderId ∧ lvl.price = p) := by
  obtain ⟨⟨st1, idx1, bids1, ts⟩, hms⟩ :
      ∃ r, MatchingEngine.matchSide MatchingEngine.sellStop e.nextOrderId
        (e.storage ++ [⟨e.nextOrderId, Side.Sell, p, q, q, 0⟩])
        e.book.index e.book.bids [] = r := ⟨_, rfl⟩
  have hfr : Storage.hasId e.storage e.nextOrderId = false := h.fresh_not_hasId
  obtain ⟨hg0, hh0, hgne, hhne, hmap0⟩ :=
    append_fresh_getOrd (o := ⟨e.nextOrderId, Side.Sell, p, q, q, 0⟩) hfr
  have hTb : e.nextOrderId ∉ sideIds e.book.bids :=
    fun h1 => h.fresh_not_in_sides (List.mem_append.mpr (Or.inl h1))
  have hndB : (sideIds e.book.bids).Nodup := h.idsNodup.of_append_left
  have hwfB0 : sideLevelWF (e.storage ++ [⟨e.nextOrderId, Side.Sell, p, q, q, 0⟩])
      Side.Buy e.book.bids := by
    apply sideLevelWF_congr h.bidsWF
    intro j hj
    have hjne : j ≠ e.nextOrderId := fun h1 => hTb (h1 ▸ hj)
    exact ⟨hgne j hjne, hhne j hjne⟩
  obtain ⟨⟨k, hk, hpr⟩, ⟨r, hrEq, hidxIff⟩, hwfOut, hlvl0, hstab, hkeep, hstopF,
      hmapF, ⟨new, htsEq, htrF⟩⟩ :=
    MatchingEngine.matchSide_spec MatchingEngine.sellStop e.nextOrderId e.book.bids _ _ _
      hh0 hTb hndB (fun l hl => ⟨(hwfB0 l hl).1, (hwfB0 l hl).2.1,
        fun i hi => ((hwfB0 l hl).2.2 i hi).1⟩) st1 idx1 bids1 ts hms
  have hside1 : (st1.getOrd e.nextOrderId).side = Side.Sell := by
    rw [(hkeep e.nextOrderId).2.1, hg0]
  have hprice1 : (st1.getOrd e.nextOrderId).price = p := by
    rw [(hkeep e.nextOrderId).2.2.1, hg0]
  have hg0q : (Storage.getOrd (e.storage ++ [⟨e.nextOrderId, Side.Sell, p, q, q, 0⟩])
      e.nextOrderId).quantity = q := by
    rw [show (Storage.getOrd (e.storage ++ [⟨e.nextOrderId, Side.Sell, p, q, q, 0⟩])
      e.nextOrderId) = ⟨e.nextOrderId, Side.Sell, p, q, q, 0⟩ from hg0]
  have hsnd : (e.submitOrder Side.Sell p q).2 = ts := by
    rw [MatchingEngine.submitOrder_sell_eq e p q hms]
    by_cases hrest : 0 < (st1.getOrd e.nextOrderId).quantity
    · rw [if_pos hrest]
    · rw [if_neg hrest]
  rw [List.nil_append] at htsEq
  refine ⟨?_, ?_, ?_⟩
  · intro m hm
    rw [hsnd, htsEq] at hm ⊢
    obtain ⟨mid, hmid, hEq⟩ := htrF m hm
    have hne : mid ≠ e.nextOrderId := fun h1 => hTb (h1 ▸ hmid)
    refine ⟨mid, hmid, ?_⟩
    rw [List.get?_eq_get hm, hEq, hgne mid hne, hg0q]
  · intro j hj
    rw [MatchingEngine.submitOrder_sell_eq e p q hms] at hj
    have hsub1 : j ∈ idx1 → j ∈ e.book.index := fun h1 => ((hidxIff j).mp h1).1
    by_cases hrest : 0 < (st1.getOrd e.nextOrderId).quantity
    · rw [if_pos hrest, addOrder_sell_eq hside1] at hj
      by_cases hc : idx1.contains e.nextOrderId = true
      · rw [if_pos hc] at hj
        exact Or.inr (hsub1 hj)
      · rw [if_neg hc] at hj
        rcases List.mem_cons.mp hj with h1 | h1
        · exact Or.inl h1
        · exact Or.inr (hsub1 h1)
    · rw [if_neg hrest] at hj
      exact Or.inr (hsub1 hj)
  · intro hrest2
    have hstor : (e.submitOrder Side.Sell p q).1.storage = st1 := by
      rw [MatchingEngine.submitOrder_sell_eq e p q hms]
      by_cases hrest : 0 < (st1.getOrd e.nextOrderId).quantity
      · rw [if_pos hrest]
      · rw [if_neg hrest]
    rw [hstor] at hrest2
    rw [MatchingEngine.submitOrder_sell_eq e p q hms, if_pos hrest2,
      addOrder_sell_eq hside1]
    show ∃ lvl, levelAt? p (emplaceAdd OrderBook.askCmp st1
      ((st1.getOrd e.nextOrderId).price) e.nextOrderId e.book.asks) = some lvl ∧ _
    rw [hprice1]
    exact emplaceAdd_levelAt OrderBook.askCmp st1 p e.nextOrderId e.book.asks

theorem submit_nextOrderId (e : MatchingEngine) (sd : Side) (p : Int) (q : Nat) :
    (e.submitOrder sd p q).1.nextOrderId = e.nextOrderId + 1 := by
  cases sd with
  | Buy =>
    obtain ⟨⟨st1, idx1, asks1, ts⟩, hms⟩ :
        ∃ r, MatchingEngine.matchSide MatchingEngine.buyStop e.nextOrderId
          (e.storage ++ [⟨e.nextOrderId, Side.Buy, p, q, q, 0⟩])
          e.book.index e.book.asks [] = r := ⟨_, rfl⟩
    rw [MatchingEngine.submitOrder_buy_eq e p q hms]
    by_cases hrest : 0 < (st1.getOrd e.nextOrderId).quantity
    · rw [if_pos hrest]
    · rw [if_neg hrest]
  | Sell =>
    obtain ⟨⟨st1, idx1, bids1, ts⟩, hms⟩ :
        ∃ r, MatchingEngine.matchSide MatchingEngine.sellStop e.nextOrderId
          (e.storage ++ [⟨e.nextOrderId, Side.Sell, p, q, q, 0⟩])
          e.book.index e.book.bids [] = r := ⟨_, rfl⟩
    rw [MatchingEngine.submitOrder_sell_eq e p q hms]
    by_cases hrest : 0 < (st1.getOrd e.nextOrderId).quantity
    · rw [if_pos hrest]
    · rw [if_neg hrest]

theorem matchSide_zero (stop : Int → Int → Bool) (takerId : Nat) (st : Storage)
    (idx : List Nat) (levels : List PriceLevel)
    (h0 : (Storage.getOrd st takerId).quantity = 0) :
    MatchingEngine.matchSide stop takerId st idx levels [] =
      (st, idx, levels, []) := by
  cases levels with
  | nil => rw [MatchingEngine.matchSide]
  | cons l ls =>
    rw [MatchingEngine.matchSide, if_pos h0]

/-- C2: after every public operation (every reachable state), each price
level's cached total equals the sum of the remaining quantities of the
orders resting in it, and no empty level remains in the book. -/
theorem claim_C2 (e : MatchingEngine) (he : Reachable e) :
    ∀ l ∈ e.book.bids ++ e.book.asks,
      l.totalQty = l.qtySum e.storage ∧ l.orders ≠ [] := by
  intro l hl
  have h := reachable_inv he
  rcases List.mem_append.mp hl with h1 | h1
  · exact ⟨by rw [PriceLevel.qtySum_eq_idsQty, (h.bidsWF l h1).2.1],
      (h.bidsWF l h1).1⟩
  · exact ⟨by rw [PriceLevel.qtySum_eq_idsQty, (h.asksWF l h1).2.1],
      (h.asksWF l h1).1⟩

theorem claim_C2_witness :
    (⟨100, [1], 5⟩ : PriceLevel).totalQty =
      PriceLevel.qtySum
        (MatchingEngine.init.submitOrder Side.Sell 100 5).1.storage
        ⟨100, [1], 5⟩ ∧
    (⟨100, [1], 5⟩ : PriceLevel).orders ≠ [] :=
  claim_C2 _ (Reachable.submit Side.Sell 100 5 Reachable.init)
    ⟨100, [1], 5⟩ (by decide)

/-- C3: a reachable book is never crossed or locked: whenever both sides are
non-empty, the best bid is strictly below the best ask. -/
theorem claim_C3 (e : MatchingEngine) (he : Reachable e) :
    OrderBook.noCross e.book :=
  (reachable_inv he).nocross

theorem claim_C3_witness :
    OrderBook.bestBid ((MatchingEngine.init.submitOrder Side.Sell 100 5).1.submitOrder
      Side.Buy 90 3).1.book = some 90 ∧
    OrderBook.bestAsk ((MatchingEngine.init.submitOrder Side.Sell 100 5).1.submitOrder
      Side.Buy 90 3).1.book = some 100 ∧
    OrderBook.noCross ((MatchingEngine.init.submitOrder Side.Sell 100 5).1.submitOrder
      Side.Buy 90 3).1.book :=
  ⟨by decide, by decide,
    claim_C3 _ (Reachable.submit Side.Buy 90 3
      (Reachable.submit Side.Sell 100 5 Reachable.init))⟩

/-- C10: a fresh engine reports `lastOrderId() = 0`, and no reachable state
ever stores an order with id 0: allocation starts at 1, so 0 is a safe
sentinel. -/
theorem claim_C10 :
    MatchingEngine.init.lastOrderId = 0 ∧
    ∀ e, Reachable e → Storage.hasId e.storage 0 = false := by
  refine ⟨rfl, ?_⟩
  intro e he
  have h := reachable_inv he
  rw [← Bool.not_eq_true]
  intro h1
  obtain ⟨o, ho, hid⟩ := Storage.hasId_iff.mp h1
  have := h.storageBound o ho
  omega

theorem claim_C10_witness :
    MatchingEngine.init.lastOrderId = 0 ∧
    Storage.hasId (MatchingEngine.init.submitOrder Side.Buy 100 5).1.storage 0
      = false :=
  ⟨claim_C10.1, claim_C10.2 _ (Reachable.submit Side.Buy 100 5 Reachable.init)⟩

/-- C9: `PriceLevel::reduceTop` as written does NOT do what the spec states:
on a non-empty level it leaves both the front order and the cached total
untouched (the body is guarded by `orders_.empty()`), and on an empty level
it dereferences the front of an empty deque (undefined behaviour, modelled
as `none`). -/
theorem claim_C9 (l : PriceLevel) (q : Nat) :
    (l.orders ≠ [] → PriceLevel.reduceTop l q = some l) ∧
    (l.orders = [] → PriceLevel.reduceTop l q = none) := by
  constructor
  · intro h
    rw [PriceLevel.reduceTop, if_neg]
    intro h1
    exact h (List.isEmpty_iff.mp h1)
  · intro h
    rw [PriceLevel.reduceTop, if_pos (List.isEmpty_iff.mpr h)]

theorem claim_C9_witness :
    PriceLevel.reduceTop ⟨100, [1], 5⟩ 3 = some ⟨100, [1], 5⟩ ∧
    PriceLevel.reduceTop ⟨100, [], 0⟩ 3 = none :=
  ⟨(claim_C9 ⟨100, [1], 5⟩ 3).1 (by decide), (claim_C9 ⟨100, [], 0⟩ 3).2 rfl⟩

/-- C5: `modifyOrder` fails with `notFound` exactly on an unknown id and with
`invalidModify` exactly on a same-price modify that does not strictly reduce
the quantity; both throws happen before any mutation, so the engine (book,
index, storage) is returned unchanged. -/
theorem claim_C5 (e : MatchingEngine) (i : Nat) (np : Int) (nq : Nat) :
    (OrderBook.getOrder e.storage e.book i = none →
      e.modifyOrder i np nq =
        (e, Except.error MatchingEngine.ModifyError.notFound)) ∧
    (∀ ord, OrderBook.getOrder e.storage e.book i = some ord →
      np = ord.price → ord.quantity ≤ nq →
      e.modifyOrder i np nq =
        (e, Except.error MatchingEngine.ModifyError.invalidModify)) ∧
    (∀ err, (e.modifyOrder i np nq).2 = Except.error err →
      (e.modifyOrder i np nq).1 = e ∧
      ((err = MatchingEngine.ModifyError.notFound ∧
          OrderBook.getOrder e.storage e.book i = none) ∨
       (err = MatchingEngine.ModifyError.invalidModify ∧ ∃ ord,
         OrderBook.getOrder e.storage e.book i = some ord ∧
         np = ord.price ∧ ord.quantity ≤ nq))) := by
  refine ⟨?_, ?_, ?_⟩
  · intro hgo
    rw [MatchingEngine.modifyOrder, hgo]
  · intro ord hgo hp hq
    rw [MatchingEngine.modifyOrder, hgo]
    simp only []
    rw [if_pos hp, if_pos hq]
  · intro err herr
    cases hgo : OrderBook.getOrder e.storage e.book i with
    | none =>
      rw [MatchingEngine.modifyOrder, hgo] at herr ⊢
      have herr2 : err = MatchingEngine.ModifyError.notFound :=
        (Except.error.inj (show (Except.error MatchingEngine.ModifyError.notFound :
          Except MatchingEngine.ModifyError (List Trade)) = Except.error err
          from herr)).symm
      exact ⟨rfl, Or.inl ⟨herr2, rfl⟩⟩
    | some ord =>
      rw [MatchingEngine.modifyOrder, hgo] at herr ⊢
      simp only [] at herr ⊢
      by_cases hp : np = ord.price
      · rw [if_pos hp] at herr ⊢
        by_cases hq : ord.quantity ≤ nq
        · rw [if_pos hq] at herr ⊢
          have herr2 : err = MatchingEngine.ModifyError.invalidModify :=
            (Except.error.inj
              (show (Except.error MatchingEngine.ModifyError.invalidModify :
                Except MatchingEngine.ModifyError (List Trade)) = Except.error err
                from herr)).symm
          exact ⟨rfl, Or.inr ⟨herr2, ord, rfl, hp, hq⟩⟩
        · rw [if_neg hq] at herr
          exact Except.noConfusion
            (show (Except.ok ([] : List Trade) :
              Except MatchingEngine.ModifyError (List Trade)) = Except.error err
              from herr)
      · rw [if_neg hp] at herr
        exact Except.noConfusion
          (show (Except.ok ((((e.cancelOrder i).1).submitOrder ord.side np nq).2) :
            Except MatchingEngine.ModifyError (List Trade)) = Except.error err
            from herr)

theorem claim_C5_witness :
    MatchingEngine.init.modifyOrder 7 100 5 =
      (MatchingEngine.init, Except.error MatchingEngine.ModifyError.notFound) ∧
    (MatchingEngine.init.submitOrder Side.Sell 100 5).1.modifyOrder 1 100 9 =
      ((MatchingEngine.init.submitOrder Side.Sell 100 5).1,
        Except.error MatchingEngine.ModifyError.invalidModify) :=
  ⟨(claim_C5 MatchingEngine.init 7 100 5).1 (by decide),
   (claim_C5 (MatchingEngine.init.submitOrder Side.Sell 100 5).1 1 100 9).2.1
     ⟨1, Side.Sell, 100, 5, 5, 0⟩ (by decide) (by decide) (by decide)⟩

/-- C6: cancelling an id that is not resting in the book is a no-op that
returns `false`; in particular the second of two consecutive cancels of the
same id always returns `false` with the engine unchanged. -/
theorem claim_C6 (e : MatchingEngine) (i : Nat) :
    (OrderBook.hasOrder e.book i = false → e.cancelOrder i = (e, false)) ∧
    ((e.cancelOrder i).1.cancelOrder i = ((e.cancelOrder i).1, false)) := by
  have hgen : ∀ e2 : MatchingEngine, OrderBook.hasOrder e2.book i = false →
      e2.cancelOrder i = (e2, false) := by
    intro e2 h0
    have h0c : e2.book.index.contains i = false := h0
    have hcne : ¬ (e2.book.index.contains i = true) := by
      rw [h0c]
      exact Bool.false_ne_true
    show (match OrderBook.cancelOrder e2.storage e2.book i with
      | (b2, ok) => ({ e2 with book := b2 }, ok)) = (e2, false)
    rw [OrderBook.cancelOrder, if_neg hcne]
  refine ⟨hgen e, ?_⟩
  by_cases hc : e.book.index.contains i = true
  · apply hgen
    show ((e.cancelOrder i).1).book.index.contains i = false
    have hbook : (e.cancelOrder i).1.book.index =
        e.book.index.filter (fun j => j != i) := by
      show ((OrderBook.cancelOrder e.storage e.book i).1).index = _
      rw [OrderBook.cancelOrder, if_pos hc]
      cases hside : (e.storage.getOrd i).side with
      | Buy => simp only [hside]
      | Sell => simp only [hside]
    rw [hbook, ← Bool.not_eq_true, contains_iff_mem]
    intro hmem
    have := (List.mem_filter.mp hmem).2
    simp at this
  · have h1 : e.cancelOrder i = (e, false) := by
      apply hgen
      show e.book.index.contains i = false
      exact Bool.eq_false_iff.mpr hc
    rw [h1]
    exact hgen e (Bool.eq_false_iff.mpr hc)

theorem claim_C6_witness :
    MatchingEngine.init.cancelOrder 3 = (MatchingEngine.init, false) ∧
    (((MatchingEngine.init.submitOrder Side.Sell 100 5).1.cancelOrder 1).1.cancelOrder 1)
      = ((((MatchingEngine.init.submitOrder Side.Sell 100 5).1).cancelOrder 1).1,
        false) :=
  ⟨(claim_C6 MatchingEngine.init 3).1 (by decide),
   (claim_C6 (MatchingEngine.init.submitOrder Side.Sell 100 5).1 1).2⟩

/-- C7 (amended): when both sides are non-empty, `spread()` returns
`(best_ask − best_bid) / 100` as a decimal (dollar) amount, not the integer
tick difference; when either side is empty it returns absent. -/
theorem claim_C7 (b : OrderBook) :
    (∀ pb ∈ b.bestBid, ∀ pa ∈ b.bestAsk,
      OrderBook.spread b = some (((pa - pb : Int) : ℚ) / 100)) ∧
    ((b.bestBid = none ∨ b.bestAsk = none) → OrderBook.spread b = none) := by
  constructor
  · intro pb hpb pa hpa
    have h1 : b.bestBid = some pb := Option.mem_def.mp hpb
    have h2 : b.bestAsk = some pa := Option.mem_def.mp hpa
    rw [OrderBook.spread, h1, h2]
  · intro h
    rcases h with h | h
    · rw [OrderBook.spread, h]
    · rw [OrderBook.spread, h]
      cases h2 : b.bestBid <;> rfl

theorem claim_C7_witness :
    OrderBook.spread ((MatchingEngine.init.submitOrder Side.Sell 100 5).1.submitOrder
      Side.Buy 90 3).1.book = some (((100 - 90 : Int) : ℚ) / 100) ∧
    OrderBook.spread MatchingEngine.init.book = none :=
  ⟨(claim_C7 _).1 90 (Option.mem_def.mpr (by decide))
      100 (Option.mem_def.mpr (by decide)),
   (claim_C7 MatchingEngine.init.book).2 (Or.inl rfl)⟩

/-- C7, counterexample to the spec's wording: on a book with best bid 9950
and best ask 10050 (prices in cents), `spread()` does not return the integer
tick difference 100; it returns the dollar amount 1. -/
theorem claim_C7_counterexample :
    OrderBook.bestBid ((MatchingEngine.init.submitOrder Side.Buy 9950 5).1.submitOrder
      Side.Sell 10050 5).1.book = some 9950 ∧
    OrderBook.bestAsk ((MatchingEngine.init.submitOrder Side.Buy 9950 5).1.submitOrder
      Side.Sell 10050 5).1.book = some 10050 ∧
    OrderBook.spread ((MatchingEngine.init.submitOrder Side.Buy 9950 5).1.submitOrder
      Side.Sell 10050 5).1.book ≠ some ((10050 : ℚ) - 9950) ∧
    OrderBook.spread ((MatchingEngine.init.submitOrder Side.Buy 9950 5).1.submitOrder
      Side.Sell 10050 5).1.book = some 1 := by
  have hb : OrderBook.bestBid ((MatchingEngine.init.submitOrder Side.Buy 9950 5).1.submitOrder
      Side.Sell 10050 5).1.book = some 9950 := by decide
  have ha : OrderBook.bestAsk ((MatchingEngine.init.submitOrder Side.Buy 9950 5).1.submitOrder
      Side.Sell 10050 5).1.book = some 10050 := by decide
  have hs : OrderBook.spread ((MatchingEngine.init.submitOrder Side.Buy 9950 5).1.submitOrder
      Side.Sell 10050 5).1.book = some (((10050 - 9950 : Int) : ℚ) / 100) := by
    rw [OrderBook.spread, hb, ha]
  refine ⟨hb, ha, ?_, ?_⟩
  · rw [hs]
    intro hEq
    have h2 := Option.some.inj hEq
    norm_num at h2
  · rw [hs]
    simp only [Option.some.injEq]
    norm_num

/-- C8 (amended): `submitOrder` performs no argument validation and has no
error channel: every call, including zero or negative price and zero
quantity, allocates an order and consumes an id.  A zero-quantity submit
trades nothing and leaves the book unchanged, but the dead order is still
allocated in storage. -/
theorem claim_C8 (e : MatchingEngine) (he : Reachable e) (sd : Side) (p : Int)
    (q : Nat) :
    (e.submitOrder sd p q).1.nextOrderId = e.nextOrderId + 1 ∧
    (q = 0 →
      (e.submitOrder sd p q).2 = [] ∧
      (e.submitOrder sd p q).1.book = e.book ∧
      (e.submitOrder sd p q).1.storage =
        e.storage ++ [⟨e.nextOrderId, sd, p, 0, 0, 0⟩]) := by
  refine ⟨submit_nextOrderId e sd p q, ?_⟩
  intro hq
  subst hq
  have h := reachable_inv he
  have hfr : Storage.hasId e.storage e.nextOrderId = false := h.fresh_not_hasId
  cases sd with
  | Buy =>
    obtain ⟨hg0, hh0, hgne, hhne, hmap0⟩ :=
      append_fresh_getOrd (o := ⟨e.nextOrderId, Side.Buy, p, 0, 0, 0⟩) hfr
    have hq0 : (Storage.getOrd
        (e.storage ++ [⟨e.nextOrderId, Side.Buy, p, 0, 0, 0⟩])
        e.nextOrderId).quantity = 0 := by
      rw [show (Storage.getOrd (e.storage ++ [⟨e.nextOrderId, Side.Buy, p, 0, 0, 0⟩])
        e.nextOrderId) = ⟨e.nextOrderId, Side.Buy, p, 0, 0, 0⟩ from hg0]
    have hms := matchSide_zero MatchingEngine.buyStop e.nextOrderId
      (e.storage ++ [⟨e.nextOrderId, Side.Buy, p, 0, 0, 0⟩])
      e.book.index e.book.asks hq0
    rw [MatchingEngine.submitOrder_buy_eq e p 0 hms,
      if_neg (by rw [hq0]; exact Nat.lt_irrefl 0)]
    exact ⟨rfl, rfl, rfl⟩
  | Sell =>
    obtain ⟨hg0, hh0, hgne, hhne, hmap0⟩ :=
      append_fresh_getOrd (o := ⟨e.nextOrderId, Side.Sell, p, 0, 0, 0⟩) hfr
    have hq0 : (Storage.getOrd
        (e.storage ++ [⟨e.nextOrderId, Side.Sell, p, 0, 0, 0⟩])
        e.nextOrderId).quantity = 0 := by
      rw [show (Storage.getOrd (e.storage ++ [⟨e.nextOrderId, Side.Sell, p, 0, 0, 0⟩])
        e.nextOrderId) = ⟨e.nextOrderId, Side.Sell, p, 0, 0, 0⟩ from hg0]
    have hms := matchSide_zero MatchingEngine.sellStop e.nextOrderId
      (e.storage ++ [⟨e.nextOrderId, Side.Sell, p, 0, 0, 0⟩])
      e.book.index e.book.bids hq0
    rw [MatchingEngine.submitOrder_sell_eq e p 0 hms,
      if_neg (by rw [hq0]; exact Nat.lt_irrefl 0)]
    exact ⟨rfl, rfl, rfl⟩

theorem claim_C8_witness :
    (MatchingEngine.init.submitOrder Side.Buy (-5) 0).1.nextOrderId =
      MatchingEngine.init.nextOrderId + 1 ∧
    (MatchingEngine.init.submitOrder Side.Buy (-5) 0).2 = [] ∧
    (MatchingEngine.init.submitOrder Side.Buy (-5) 0).1.book =
      MatchingEngine.init.book ∧
    (MatchingEngine.init.submitOrder Side.Buy (-5) 0).1.storage =
      MatchingEngine.init.storage ++
        [⟨MatchingEngine.init.nextOrderId, Side.Buy, -5, 0, 0, 0⟩] :=
  ⟨(claim_C8 MatchingEngine.init Reachable.init Side.Buy (-5) 0).1,
   (claim_C8 MatchingEngine.init Reachable.init Side.Buy (-5) 0).2 rfl⟩

/-- C8, counterexample to the spec's wording: submitting with the
non-positive price 0 is not rejected: no error exists, the id 1 is consumed
(`nextOrderId` advances to 2), and the order is allocated and rests in the
book. -/
theorem claim_C8_counterexample :
    (MatchingEngine.init.submitOrder Side.Buy 0 5).1.nextOrderId = 2 ∧
    OrderBook.hasOrder (MatchingEngine.init.submitOrder Side.Buy 0 5).1.book 1
      = true ∧
    OrderBook.bestBid (MatchingEngine.init.submitOrder Side.Buy 0 5).1.book =
      some 0 ∧
    Storage.hasId (MatchingEngine.init.submitOrder Side.Buy 0 5).1.storage 1
      = true := by
  refine ⟨by decide, by decide, by decide, by decide⟩

/-- C1: every trade emitted by `submitOrder` carries the maker's resting
price and the quantity `min(taker_remaining, maker_remaining)` at the moment
of the fill: the m-th trade names a maker resting on the opposite side, is
priced at that maker's resting price, and its quantity is the minimum of
the taker's remaining quantity (the submitted quantity less the fills so
far) and the maker's resting quantity.  The reprice path of `modifyOrder`
returns exactly the trades of its internal resubmission, so the same shape
applies to them. -/
theorem claim_C1 (e : MatchingEngine) (he : Reachable e) :
    (∀ sd p q m, m < ((e.submitOrder sd p q).2).length →
      ∃ mid ∈ sideIds (match sd with
          | Side.Buy => e.book.asks
          | Side.Sell => e.book.bids),
        ((e.submitOrder sd p q).2).get? m =
          some ⟨mid, e.nextOrderId, (e.storage.getOrd mid).price,
            min (q - tradeQtyPref (e.submitOrder sd p q).2 m)
              ((e.storage.getOrd mid).quantity)⟩) ∧
    (∀ i np nq ord, OrderBook.getOrder e.storage e.book i = some ord →
      np ≠ ord.price →
      (e.modifyOrder i np nq).2 =
        Except.ok (((e.cancelOrder i).1.submitOrder ord.side np nq).2)) := by
  refine ⟨?_, ?_⟩
  · intro sd p q m hm
    cases sd with
    | Buy => exact (submit_spec_buy e p q (reachable_inv he)).1 m hm
    | Sell => exact (submit_spec_sell e p q (reachable_inv he)).1 m hm
  · intro i np nq ord hgo hnp
    rw [MatchingEngine.modifyOrder, hgo]
    simp only []
    rw [if_neg hnp]

theorem claim_C1_witness :
    ∃ mid ∈ sideIds (MatchingEngine.init.submitOrder Side.Sell 100 5).1.book.asks,
      (((MatchingEngine.init.submitOrder Side.Sell 100 5).1).submitOrder
          Side.Buy 100 3).2.get? 0 =
        some ⟨mid, (MatchingEngine.init.submitOrder Side.Sell 100 5).1.nextOrderId,
          ((MatchingEngine.init.submitOrder Side.Sell 100 5).1.storage.getOrd
            mid).price,
          min (3 - tradeQtyPref (((MatchingEngine.init.submitOrder
              Side.Sell 100 5).1).submitOrder Side.Buy 100 3).2 0)
            (((MatchingEngine.init.submitOrder Side.Sell 100 5).1.storage.getOrd
              mid).quantity)⟩ :=
  (claim_C1 _ (Reachable.submit Side.Sell 100 5 Reachable.init)).1
    Side.Buy 100 3 0 (by
      have hfl : MatchingEngine.fillLevel 2
          [⟨1, Side.Sell, 100, 5, 5, 0⟩, ⟨2, Side.Buy, 100, 3, 3, 0⟩]
          ⟨100, [1], 5⟩ [1] [] =
          ([⟨1, Side.Sell, 100, 2, 5, 0⟩, ⟨2, Side.Buy, 100, 0, 3, 0⟩],
            ⟨100, [1], 2⟩, [1], [⟨1, 2, 100, 3⟩]) := by
        rw [MatchingEngine.fillLevel.eq_def]
        decide
      have hms : MatchingEngine.matchSide MatchingEngine.buyStop 2
          [⟨1, Side.Sell, 100, 5, 5, 0⟩, ⟨2, Side.Buy, 100, 3, 3, 0⟩] [1]
          [⟨100, [1], 5⟩] [] =
          ([⟨1, Side.Sell, 100, 2, 5, 0⟩, ⟨2, Side.Buy, 100, 0, 3, 0⟩], [1],
            [⟨100, [1], 2⟩], [⟨1, 2, 100, 3⟩]) := by
        rw [MatchingEngine.matchSide, if_neg (by decide), if_neg (by decide), hfl]
        decide
      have he1 : (MatchingEngine.init.submitOrder Side.Sell 100 5).1 =
          ⟨⟨[], [⟨100, [1], 5⟩], [1]⟩, [⟨1, Side.Sell, 100, 5, 5, 0⟩], 2⟩ := by
        decide
      have h2 : (((MatchingEngine.init.submitOrder Side.Sell 100 5).1).submitOrder
          Side.Buy 100 3).2 = [⟨1, 2, 100, 3⟩] := by
        rw [he1, MatchingEngine.submitOrder_buy_eq
          ⟨⟨[], [⟨100, [1], 5⟩], [1]⟩, [⟨1, Side.Sell, 100, 5, 5, 0⟩], 2⟩
          100 3 hms, if_neg (by decide)]
      rw [h2]
      decide)

/-- C4: repricing a live order is cancel + resubmit: the engine state and
trade list equal those of `cancelOrder` followed by `submitOrder` of the
captured side with the new price and quantity; a fresh id (the engine's
previous `nextOrderId`, readable afterwards via `lastOrderId()`) replaces
the original id, which is no longer in the book's index; any rested
remainder sits at the tail of the FIFO queue of its new price level. -/
theorem claim_C4 (e : MatchingEngine) (he : Reachable e) (i : Nat) (np : Int)
    (nq : Nat) (ord : Order)
    (hgo : OrderBook.getOrder e.storage e.book i = some ord)
    (hnp : np ≠ ord.price) :
    e.modifyOrder i np nq =
      ((((e.cancelOrder i).1).submitOrder ord.side np nq).1,
        Except.ok ((((e.cancelOrder i).1).submitOrder ord.side np nq).2)) ∧
    (e.modifyOrder i np nq).1.lastOrderId = e.nextOrderId ∧
    OrderBook.hasOrder (e.modifyOrder i np nq).1.book i = false ∧
    (0 < (((e.modifyOrder i np nq).1).storage.getOrd e.nextOrderId).quantity →
      ∃ lvl, levelAt? np (match ord.side with
          | Side.Buy => (e.modifyOrder i np nq).1.book.bids
          | Side.Sell => (e.modifyOrder i np nq).1.book.asks) = some lvl ∧
        lvl.orders.getLast? = some e.nextOrderId ∧ lvl.price = np) := by
  have h := reachable_inv he
  have hmod : e.modifyOrder i np nq =
      ((((e.cancelOrder i).1).submitOrder ord.side np nq).1,
        Except.ok ((((e.cancelOrder i).1).submitOrder ord.side np nq).2)) := by
    rw [MatchingEngine.modifyOrder, hgo]
    simp only []
    rw [if_neg hnp]
  have hc : e.book.index.contains i = true := by
    by_contra hc
    rw [OrderBook.getOrder, if_neg hc] at hgo
    cases hgo
  have he1inv : EngineInv (e.cancelOrder i).1 := cancel_preserves e i h
  have he1next : (e.cancelOrder i).1.nextOrderId = e.nextOrderId := rfl
  have hilt : i < e.nextOrderId := by
    have hmem : i ∈ sideIds e.book.bids ++ sideIds e.book.asks :=
      (h.indexIff i).mp (contains_iff_mem.mp hc)
    have hhas : Storage.hasId e.storage i = true := h.hasId_of_mem_side hmem
    obtain ⟨o, ho, hid⟩ := Storage.hasId_iff.mp hhas
    have := h.storageBound o ho
    omega
  have hidx1 : (e.cancelOrder i).1.book.index =
      e.book.index.filter (fun j => j != i) := by
    show ((OrderBook.cancelOrder e.storage e.book i).1).index = _
    rw [OrderBook.cancelOrder, if_pos hc]
    cases hside : (e.storage.getOrd i).side with
    | Buy => simp only [hside]
    | Sell => simp only [hside]
  refine ⟨hmod, ?_, ?_, ?_⟩
  · rw [hmod]
    show (((e.cancelOrder i).1.submitOrder ord.side np nq).1).nextOrderId - 1
      = e.nextOrderId
    rw [submit_nextOrderId, he1next]
    omega
  · rw [hmod]
    show OrderBook.hasOrder (((e.cancelOrder i).1.submitOrder ord.side np nq).1).book
      i = false
    have hni : i ∉ (((e.cancelOrder i).1.submitOrder ord.side np nq).1).book.index := by
      intro hmem
      have hsub : i = (e.cancelOrder i).1.nextOrderId ∨
          i ∈ (e.cancelOrder i).1.book.index := by
        cases hside2 : ord.side with
        | Buy =>
          rw [hside2] at hmem
          exact (submit_spec_buy (e.cancelOrder i).1 np nq he1inv).2.1 i hmem
        | Sell =>
          rw [hside2] at hmem
          exact (submit_spec_sell (e.cancelOrder i).1 np nq he1inv).2.1 i hmem
      rcases hsub with h1 | h1
      · rw [he1next] at h1
        omega
      · rw [hidx1] at h1
        have := (List.mem_filter.mp h1).2
        simp at this
    rw [OrderBook.hasOrder, ← Bool.not_eq_true, contains_iff_mem]
    exact hni
  · intro hrest
    rw [hmod] at hrest ⊢
    cases hside2 : ord.side with
    | Buy =>
      rw [hside2] at hrest
      have := (submit_spec_buy (e.cancelOrder i).1 np nq he1inv).2.2
      rw [he1next] at this
      exact this hrest
    | Sell =>
      rw [hside2] at hrest
      have := (submit_spec_sell (e.cancelOrder i).1 np nq he1inv).2.2
      rw [he1next] at this
      exact this hrest

theorem claim_C4_witness :
    (MatchingEngine.init.submitOrder Side.Sell 100 5).1.modifyOrder 1 110 5 =
      (((((MatchingEngine.init.submitOrder Side.Sell 100 5).1.cancelOrder 1).1).submitOrder
          Side.Sell 110 5).1,
        Except.ok (((((MatchingEngine.init.submitOrder Side.Sell 100 5).1.cancelOrder
          1).1).submitOrder Side.Sell 110 5).2)) ∧
    ((MatchingEngine.init.submitOrder Side.Sell 100 5).1.modifyOrder 1 110 5).1.lastOrderId
      = (MatchingEngine.init.submitOrder Side.Sell 100 5).1.nextOrderId ∧
    OrderBook.hasOrder
      ((MatchingEngine.init.submitOrder Side.Sell 100 5).1.modifyOrder 1 110 5).1.book 1
      = false ∧
    (0 < ((((MatchingEngine.init.submitOrder Side.Sell 100 5).1.modifyOrder
        1 110 5).1).storage.getOrd
        (MatchingEngine.init.submitOrder Side.Sell 100 5).1.nextOrderId).quantity →
      ∃ lvl, levelAt? 110
          ((MatchingEngine.init.submitOrder Side.Sell 100 5).1.modifyOrder
            1 110 5).1.book.asks = some lvl ∧
        lvl.orders.getLast? =
          some (MatchingEngine.init.submitOrder Side.Sell 100 5).1.nextOrderId ∧
        lvl.price = 110) :=
  claim_C4 _ (Reachable.submit Side.Sell 100 5 Reachable.init) 1 110 5
    ⟨1, Side.Sell, 100, 5, 5, 0⟩ (by decide) (by decide)
